import Mathlib

/-!
Verification of the ISA-Tab parser (`isareport/parser.py`).

The Python module is shallowly embedded: each parser routine becomes a pure
Lean function over explicit state.  The source is Python 2, so `str.lower`,
`str.upper` and `re`'s `\s` are ASCII-only, which the character-level
definitions below reproduce exactly.  Tab-separated files are modelled as
lists of already-split cell rows (`csv.reader` output); the filesystem is a
partial map from path to file rows.  Exceptions raised by the Python code
(IndexError, AttributeError on `None`, KeyError, TypeError, StopIteration)
become constructors of an explicit error type threaded through `Except`.
-/

namespace Isa

/-- One data row of a tab-delimited file, as produced by `csv.reader`. -/
abbrev Row := List String

/-- A Python dict with string keys and values, as an insertion-ordered
association list (lookups and updates match dict semantics). -/
abbrev Dict := List (String × String)

/-- Association-list lookup: the value at the first matching key. -/
def alook {κ β : Type} [DecidableEq κ] : List (κ × β) → κ → Option β
  | [], _ => none
  | p :: m, k => if p.1 = k then some p.2 else alook m k

/-- Python `d.has_key(k)` / `k in d`. -/
def ahas {κ β : Type} [DecidableEq κ] (m : List (κ × β)) (k : κ) : Bool :=
  (alook m k).isSome

/-- Python `d[k] = v`: replace the value at an existing key in place,
otherwise append the new binding. -/
def aput {κ β : Type} [DecidableEq κ] : List (κ × β) → κ → β → List (κ × β)
  | [], k, v => [(k, v)]
  | p :: m, k, v => if p.1 = k then (k, v) :: m else p :: aput m k v

/-- Mutate the value stored at key `k` in place (Python mutates the object
held in the dict; entries at other keys are untouched). -/
def amod {κ β : Type} [DecidableEq κ] (m : List (κ × β)) (k : κ) (f : β → β) :
    List (κ × β) :=
  m.map fun p => if p.1 = k then (p.1, f p.2) else p

/-- The keys of an association list, in order. -/
def akeys {κ β : Type} (m : List (κ × β)) : List κ :=
  m.map Prod.fst

/-- Python 2 `\s` for `str` patterns: the six ASCII whitespace characters. -/
def wsChar (c : Char) : Bool :=
  c = ' ' || c = '\t' || c = '\n' || c = '\r' || c = '\x0b' || c = '\x0c'

/-- Python 2 `str.strip()`: drop leading and trailing ASCII whitespace. -/
def pyStrip (s : String) : String :=
  ⟨((s.data.dropWhile wsChar).reverse.dropWhile wsChar).reverse⟩

/-- `StudyAssayParser._slug`: `re.sub(r'[^0-9a-z.-_]', '-', name.lower())`.
Inside the character class, `.-_` is a code-point range `'.'` (46) to `'_'`
(95), so the characters kept by the substitution are `0-9`, `a-z` and every
character with code 46 through 95; everything else becomes `'-'`. -/
def slugKeep (c : Char) : Bool :=
  ('0' ≤ c && c ≤ '9') || ('a' ≤ c && c ≤ 'z') || ('.' ≤ c && c ≤ '_')

/-- `StudyAssayParser._slug` itself: lowercase (ASCII), then substitute. -/
def sLug (s : String) : String :=
  ⟨s.data.map fun c =>
    let c := c.toLower
    if slugKeep c then c else '-'⟩

/-- The kind fragment matched by group 2 of `_RE_NODES`:
`Name`, `File` or `REF`. -/
inductive NodeKind
  | name
  | file
  | ref
deriving DecidableEq, Repr

/-- The raw text of the matched kind keyword. -/
def NodeKind.raw : NodeKind → String
  | .name => "Name"
  | .file => "File"
  | .ref => "REF"

/-- Does `s` start with `p`?  (`String.startsWith`, stated over the
character lists so that it evaluates by kernel reduction.) -/
def strStarts (s p : String) : Bool :=
  decide (s.data.take p.data.length = p.data)

/-- Does `s` end with `p`?  (`String.endsWith` over the character lists.) -/
def strEnds (s p : String) : Bool :=
  decide (s.data.drop (s.data.length - p.data.length) = p.data)

/-- `_RE_ATTR_QUALS.match(header)`: the unanchored alternation
`(Unit|Term Accession Number|Term Source REF)` matches exactly when the
header starts with one of the three keywords. -/
def isQualHeader (h : String) : Bool :=
  strStarts h "Unit" || strStarts h "Term Accession Number" ||
    strStarts h "Term Source REF"

/-- `_RE_NODES.match(header)` for one candidate kind keyword `kw`: the
pattern `^(.+)\s(Name|File|REF)$` matches with group 2 equal to `kw`
exactly when the header ends with `kw`, the character just before it is
ASCII whitespace, and the nonempty remainder before that (group 1, matched
by `.+`) contains no newline.  The split is unique because `$` pins the
kind keyword to the end of the header. -/
def nodesMatchKind (h : String) (kw : String) : Option String :=
  let cs := h.data
  let n := cs.length
  let kl := kw.length
  if strEnds h kw && decide (kl + 2 ≤ n) && wsChar (cs.getD (n - kl - 1) 'x')
      && (cs.take (n - kl - 1)).all (· ≠ '\n') then
    some ⟨cs.take (n - kl - 1)⟩
  else none

/-- `_RE_NODES.match(header)`: group 1 (the raw subtype text) and the kind.
At most one keyword can be the header's suffix, so alternative order does
not matter; it is kept as in the greedy engine (longest group 1 first). -/
def nodesMatch (h : String) : Option (String × NodeKind) :=
  match nodesMatchKind h "REF" with
  | some pre => some (pre, .ref)
  | none =>
    match nodesMatchKind h "Name" with
    | some pre => some (pre, .name)
    | none =>
      match nodesMatchKind h "File" with
      | some pre => some (pre, .file)
      | none => none

/-- `_RE_ATTRS.match(header)`: `([^\[]+)\[?([^\]]*)\]?`, unanchored.
Group 1 is the maximal nonempty run of non-`[` characters from the start
(`none` when the header begins with `[` or is empty, in which case the
Python code goes on to fault on `m.group(1)`); group 2 is the maximal run
of non-`]` characters after the optional `[`. -/
def attrsMatch (h : String) : Option (String × String) :=
  let g1 := h.data.takeWhile (· ≠ '[')
  if g1 = [] then none
  else
    let rest := h.data.dropWhile (· ≠ '[')
    some (⟨g1⟩, ⟨(rest.drop 1).takeWhile (· ≠ ']')⟩)

/-- The role of one column header, decided in the order the code tests the
three regexes: attribute-qualifier first, then node, then attribute;
`malformed` records an attribute header rejected by `_RE_ATTRS` (the code
then faults on `m.group(1)`). -/
inductive HeaderClass
  | qual
  | node (nsubtypeRaw : String) (kind : NodeKind)
  | attr (attrClass : String) (qualKey : String)
  | malformed
deriving DecidableEq, Repr

/-- Header classification, mirroring the `if` cascade in `_collapse_rows`. -/
def classifyHeader (h : String) : HeaderClass :=
  if isQualHeader h then .qual
  else
    match nodesMatch h with
    | some (sub, k) => .node sub k
    | none =>
      match attrsMatch h with
      | some (g1, g2) => .attr g1 g2
      | none => .malformed

/-- Metadata of one node: `collections.defaultdict(collections.defaultdict)`,
mapping an attribute class (or Python `None`, when a qualifier column is hit
before any attribute column) to a qualifier→value dict. -/
abbrev MetaMap := List (Option String × Dict)

/-- `IsaNode`: one node record.  `parents` and `children` are `oset`
ordered sets of node ids, kept as duplicate-free insertion-ordered lists. -/
structure IsaNode where
  nid : String
  ntype : String
  nsubtype : String
  label : String
  parents : List String
  children : List String
  metadata : MetaMap
deriving DecidableEq, Repr

/-- `IsaNode.types`: the fixed ntype translation table. -/
def IsaNode.typesTable : List (String × String) :=
  [("name", "entity"), ("file", "file"), ("ref", "reference")]

/-- ASCII lowercase of a string (Python 2 `str.lower`). -/
def toLowerStr (s : String) : String :=
  ⟨s.data.map Char.toLower⟩

/-- `IsaNode(nid, ntype, nsubtype, label)` as called from `_collapse_rows`:
the constructor receives `ntype = _slug(m.group(2))` and
`nsubtype = _slug(m.group(1))` and translates the former through
`IsaNode.types[ntype.lower()]` (the lookup always hits, since group 2 is one
of the three kind keywords). -/
def mkIsaNode (nid : String) (kind : NodeKind) (subRaw label : String) : IsaNode :=
  { nid := nid
    ntype := (alook IsaNode.typesTable (toLowerStr (sLug kind.raw))).getD ""
    nsubtype := sLug subRaw
    label := label
    parents := []
    children := []
    metadata := [] }

/-- `oset.add`: append the element unless already present. -/
def osetAdd (l : List String) (x : String) : List String :=
  if x ∈ l then l else l ++ [x]

/-- The node mapping built by `_collapse_rows`: a `collections.OrderedDict`
from node id to node, as an insertion-ordered association list.  The Python
code mutates the node objects it holds; here every mutation is an in-place
update of the entry at the node's id. -/
abbrev NodeMap := List (String × IsaNode)

/-- Add `ck` to the children of the node at `pk`. -/
def addChild (ck : String) (n : IsaNode) : IsaNode :=
  { n with children := osetAdd n.children ck }

/-- Add `pk` to the parents of the node at `ck`. -/
def addParent (pk : String) (n : IsaNode) : IsaNode :=
  { n with parents := osetAdd n.parents pk }

/-- Lines 226-227: `last_node.children.add(nid)` then
`node.parents.add(last_node.nid)`, executed only when the two ids differ. -/
def addEdge (m : NodeMap) (pk ck : String) : NodeMap :=
  amod (amod m pk (addChild ck)) ck (addParent pk)

/-- `metadata[k][q] = v` through the defaultdict: a missing outer key gets a
fresh inner dict first.  This covers line 201 (qualifier columns) and lines
236-239 (bracketed attribute columns). -/
def metaQualPut (mm : MetaMap) (k : Option String) (q v : String) : MetaMap :=
  aput mm k (aput ((alook mm k).getD []) q v)

/-- Line 234: `metadata[attr_class] = {'value': row[i]}`, replacing the
whole inner dict of that attribute class. -/
def metaValuePut (mm : MetaMap) (k : Option String) (v : String) : MetaMap :=
  aput mm k [("value", v)]

/-- The exceptions the parser can raise, one constructor per raise site:
`rowShort` is `row[i]` past the row's end (IndexError); `noneMeta` is
`last_node.metadata` with `last_node = None` (AttributeError, lines 201,
234, 236); `noneNid` is `last_node.nid` with `last_node = None`
(AttributeError, line 212); `attrFail` is `m.group(1)` on a failed
`_RE_ATTRS` match (AttributeError, line 232); `stopIter` is `reader.next()`
on an empty file (StopIteration); `keyErr` is a missing metadata key
(KeyError, lines 172, 178); `typeErr` is subscripting or iterating `None`
(TypeError, lines 109, 176); `secKeyErr` is an unknown section name
(KeyError, line 106). -/
inductive Err
  | rowShort
  | noneMeta
  | noneNid
  | attrFail
  | stopIter
  | keyErr
  | typeErr
  | secKeyErr
deriving DecidableEq, Repr

/-- The per-row cursor of `_collapse_rows`: the mapping built so far plus
`last_node` (tracked by its id: the field `nid` never changes and every
mutation of the object goes through the mapping) and `last_attr`. -/
structure RowSt where
  nodes : NodeMap
  lastNode : Option String
  lastAttr : Option String
deriving Repr

/-- One iteration of the inner loop of `_collapse_rows` (lines 194-239) for
header `h` whose cell is `c` (`none` when the row is shorter than the
headers, making `row[i]` raise).  Each branch reads `row[i]` and
dereferences `last_node` in the order the Python statements do. -/
def stepCell (st : RowSt) (h : String) (c : Option String) : Except Err RowSt :=
  match classifyHeader h with
  | .qual =>
    match c with
    | none => .error .rowShort
    | some cell =>
      if cell = "" then .ok st
      else
        match st.lastNode with
        | none => .error .noneMeta
        | some k =>
          .ok { st with nodes := amod st.nodes k fun n =>
            { n with metadata := metaQualPut n.metadata st.lastAttr h cell } }
  | .node sub kind =>
    match c with
    | none => .error .rowShort
    | some cell =>
      let res : Except Err String :=
        match kind, st.lastNode with
        | .ref, none => .error .noneNid
        | .ref, some lk => .ok (lk ++ "-ref-" ++ sLug cell)
        | _, _ => .ok (sLug cell)
      match res with
      | .error e => .error e
      | .ok nid =>
        let m1 := if ahas st.nodes nid then st.nodes
                  else st.nodes ++ [(nid, mkIsaNode nid kind sub cell)]
        let m2 := match st.lastNode with
                  | some lk => if lk = nid then m1 else addEdge m1 lk nid
                  | none => m1
        .ok { st with nodes := m2, lastNode := some nid }
  | .attr g1 g2 =>
    let st := { st with lastAttr := some g1 }
    if g2 = "" then
      match c with
      | none => .error .rowShort
      | some cell =>
        match st.lastNode with
        | none => .error .noneMeta
        | some k =>
          .ok { st with nodes := amod st.nodes k fun n =>
            { n with metadata := metaValuePut n.metadata (some g1) cell } }
    else
      match st.lastNode with
      | none => .error .noneMeta
      | some k =>
        match c with
        | none => .error .rowShort
        | some cell =>
          .ok { st with nodes := amod st.nodes k fun n =>
            { n with metadata := metaQualPut n.metadata (some g1) g2 cell } }
  | .malformed => .error .attrFail

/-- Pair each header with `row[i]` where defined, `none` past the row's
end (the loop runs over `range(0, len(headers))`). -/
def padCells : List String → List String → List (String × Option String)
  | [], _ => []
  | h :: hs, [] => (h, none) :: padCells hs []
  | h :: hs, c :: cs => (h, some c) :: padCells hs cs

/-- The inner column loop of `_collapse_rows` over the paired cells. -/
def stepCells : RowSt → List (String × Option String) → Except Err RowSt
  | st, [] => .ok st
  | st, (h, c) :: rest =>
    match stepCell st h c with
    | .error e => .error e
    | .ok st' => stepCells st' rest

/-- One iteration of the outer row loop: `last_attr` and `last_node` reset
to `None`, then the columns are scanned. -/
def processRow (headers : List String) (row : List String) (nodes : NodeMap) :
    Except Err NodeMap :=
  match stepCells ⟨nodes, none, none⟩ (padCells headers row) with
  | .error e => .error e
  | .ok st => .ok st.nodes

/-- `StudyAssayParser._collapse_rows`: fold the rows into the ordered node
mapping, starting from an empty `OrderedDict`. -/
def collapseRows (headers : List String) (rows : List (List String)) :
    Except Err NodeMap :=
  rows.foldlM (fun m r => processRow headers r m) []

/-- The kind of the first node-classified column among the headers (the
first node column every row encounters), if any. -/
def firstNodeKind : List String → Option NodeKind
  | [] => none
  | h :: hs =>
    match classifyHeader h with
    | .node _ k => some k
    | _ => firstNodeKind hs

/-- The slug transform as the specification describes it: lowercase, then
replace every character that is not an ASCII digit, lowercase letter, dot,
dash or underscore by a dash.  Stated only to be compared with `sLug`,
the transform the source actually performs. -/
def sLugClaim (s : String) : String :=
  ⟨s.data.map fun c =>
    let c := c.toLower
    if ('0' ≤ c && c ≤ '9') || ('a' ≤ c && c ≤ 'z') || c = '.' || c = '-'
        || c = '_' then c else '-'⟩

/-- The filesystem visible to the parser: a map from path to the rows of
the tab-delimited file stored there, `none` when the path does not exist. -/
abbrev Fs := String → Option (List Row)

/-- `os.path.join(self._dir, fname)` for the relative names the parser
builds (a bare investigation-file name gives `self._dir = ""`). -/
def pjoin (d f : String) : String :=
  if d = "" then f else d ++ "/" ++ f

/-- `StudyAssayParser._parse_nodes`: `None` when the file is absent,
otherwise the first row becomes the header (`reader.next()`, raising
StopIteration on an empty file) and the remaining rows are collapsed. -/
def parseNodesE (fs : Fs) (dir fname : String) : Except Err (Option NodeMap) :=
  match fs (pjoin dir fname) with
  | none => .ok none
  | some [] => .error .stopIter
  | some (header :: drows) =>
    match collapseRows header drows with
    | .error e => .error e
    | .ok m => .ok (some m)

/-- `for`-loop traversal with fail-fast errors, in list order. -/
def mapME {α β : Type} (f : α → Except Err β) : List α → Except Err (List β)
  | [] => .ok []
  | a :: as =>
    match f a with
    | .error e => .error e
    | .ok b =>
      match mapME f as with
      | .error e => .error e
      | .ok bs => .ok (b :: bs)

/-- The record populated by `InvestigationParser._parse_region`.  Python's
`Investigation` and `Study` objects are attribute bags that `setattr` can
extend, so one record type carries every section target; a section field
holds `none` when `setattr` stored Python `None` (a key/value block that
was empty).  `studies` is kept outside, on the investigation wrapper. -/
structure IRec where
  metadata : Dict := []
  ontology_refs : Option (List Dict) := some []
  publications : Option (List Dict) := some []
  contacts : Option (List Dict) := some []
  design_descriptors : Option (List Dict) := some []
  factors : Option (List Dict) := some []
  assays : Option (List Dict) := some []
  protocols : Option (List Dict) := some []
deriving DecidableEq, Repr

/-- A freshly constructed `Investigation()` or `Study()` record. -/
def IRec.init : IRec := {}

/-- `ISATabAssayRecord` equivalent built by `StudyAssayParser.parse`: the
raw assay metadata dict plus whatever `_parse_nodes` returned. -/
structure AssayOut where
  metadata : Dict
  nodes : Option NodeMap
deriving DecidableEq, Repr

/-- A study as it leaves `StudyAssayParser.parse`: the study record, its
node mapping, and its rebuilt assay list. -/
structure StudyOut where
  study : IRec
  nodes : NodeMap
  assays : List AssayOut
deriving DecidableEq, Repr

/-- Lines 177-179: build one `Assay` from a raw assay metadata dict,
reading `assay["Study Assay File Name"]` (KeyError when absent) and
attaching whatever `_parse_nodes` returns, a missing file included. -/
def mkAssay (fs : Fs) (dir : String) (raw : Dict) : Except Err AssayOut :=
  match alook raw "Study Assay File Name" with
  | none => .error .keyErr
  | some fname =>
    match parseNodesE fs dir fname with
    | .error e => .error e
    | .ok nd => .ok ⟨raw, nd⟩

/-- Lines 171-182, one study: parse the file named by
`study.metadata["Study File Name"]`; when the result is truthy (a
non-`None`, nonempty mapping) rebuild the assay list and keep the study,
otherwise drop it (`none`). -/
def processStudy (fs : Fs) (dir : String) (s : IRec) :
    Except Err (Option StudyOut) :=
  match alook s.metadata "Study File Name" with
  | none => .error .keyErr
  | some fname =>
    match parseNodesE fs dir fname with
    | .error e => .error e
    | .ok none => .ok none
    | .ok (some m) =>
      if m.isEmpty then .ok none
      else
        match s.assays with
        | none => .error .typeErr
        | some rawAssays =>
          match mapME (mkAssay fs dir) rawAssays with
          | .error e => .error e
          | .ok asys => .ok (some ⟨s, m, asys⟩)

/-- `StudyAssayParser.parse`: process every study in order, keeping the
ones whose node data is truthy. -/
def saParse (fs : Fs) (dir : String) (studies : List IRec) :
    Except Err (List StudyOut) :=
  match mapME (processStudy fs dir) studies with
  | .error e => .error e
  | .ok outs => .ok (outs.filterMap id)

/-- ASCII uppercase of a string (Python 2 `str.upper`). -/
def toUpperStr (s : String) : String :=
  ⟨s.data.map Char.toUpper⟩

/-- `line[0].upper() == line[0]`. -/
def upperEq (s : String) : Bool :=
  decide (toUpperStr s = s)

/-- A section-header row as `_parse_keyvals` recognizes it: a single cell
equal to its own uppercasing. -/
def isSecRow (l : Row) : Bool :=
  l.length == 1 && upperEq (l.headD "")

/-- `InvestigationParser._line_iter`: drop rows whose first cell is empty;
collapse a row whose first cell is all-uppercase and whose other cells are
all empty to that single cell. -/
def lineIter (rows : List Row) : List Row :=
  rows.filterMap fun l =>
    if l.length ≠ 0 ∧ l.headD "" ≠ "" then
      some (if upperEq (l.headD "") ∧ l.tail.all (· = "") then [l.headD ""] else l)
    else none

/-- `while not line[-1]: line = line[:-1]`: trim trailing empty cells
(the first cell is nonempty for every row `_line_iter` yields, so the
Python loop never empties the row). -/
def trimTrail (l : Row) : Row :=
  (l.reverse.dropWhile (· = "")).reverse

/-- `out[i][line[0]] = line[i+1].strip()` for each record dict, with short
rows right-padded by empty cells and extra cells ignored. -/
def addLineAux (key : String) (l : Row) : Nat → List Dict → List Dict
  | _, [] => []
  | i, d :: ds => aput d key (pyStrip (l.getD (i + 1) "")) :: addLineAux key l (i + 1) ds

/-- Fold one data row into the record dicts of a key/value block. -/
def addLine (o : List Dict) (l : Row) : List Dict :=
  addLineAux (l.headD "") l 0 o

/-- `InvestigationParser._parse_keyvals`: consume rows until a
section-header row (returned as the second component, `none` at
exhaustion) or the end; the first data row fixes the record count after
trailing-empty-cell trimming.  Also returns the unconsumed rows, which the
Python iterator keeps implicitly. -/
def pkAux : Option (List Dict) → List Row → Option (List Dict) × Option Row × List Row
  | out, [] => (out, none, [])
  | out, l :: ls =>
    if isSecRow l then (out, some l, ls)
    else
      match out with
      | none =>
        let t := trimTrail l
        pkAux (some (addLine (List.replicate (t.length - 1) []) t)) ls
      | some o => pkAux (some (addLine o l)) ls

/-- The key/value dicts `_parse_keyvals` collects from a run of data rows
(what it returns when that run is followed by a section header). -/
def kvOf : List Row → Option (List Dict)
  | [] => none
  | f :: fr =>
    let t := trimTrail f
    some (fr.foldl addLine (addLine (List.replicate (t.length - 1) []) t))

/-- `InvestigationParser.sections`: section header → record attribute. -/
def sectionsTable : List (String × String) :=
  [("ONTOLOGY SOURCE REFERENCE", "ontology_refs"),
   ("INVESTIGATION", "metadata"),
   ("INVESTIGATION PUBLICATIONS", "publications"),
   ("INVESTIGATION CONTACTS", "contacts"),
   ("STUDY DESIGN DESCRIPTORS", "design_descriptors"),
   ("STUDY PUBLICATIONS", "publications"),
   ("STUDY FACTORS", "factors"),
   ("STUDY ASSAYS", "assays"),
   ("STUDY PROTOCOLS", "protocols"),
   ("STUDY CONTACTS", "contacts")]

/-- `setattr(rec, attr_name, keyvals)`, with the `metadata` special case
`keyvals = keyvals[0]` (IndexError on an empty list gives `{}`;
subscripting `None` raises TypeError). -/
def setField (rec : IRec) (attrName : String) (kv : Option (List Dict)) :
    Except Err IRec :=
  if attrName = "metadata" then
    match kv with
    | none => .error .typeErr
    | some l => .ok { rec with metadata := l.headD [] }
  else if attrName = "ontology_refs" then .ok { rec with ontology_refs := kv }
  else if attrName = "publications" then .ok { rec with publications := kv }
  else if attrName = "contacts" then .ok { rec with contacts := kv }
  else if attrName = "design_descriptors" then .ok { rec with design_descriptors := kv }
  else if attrName = "factors" then .ok { rec with factors := kv }
  else if attrName = "assays" then .ok { rec with assays := kv }
  else if attrName = "protocols" then .ok { rec with protocols := kv }
  else .ok rec

/-- `if keyvals: rec.metadata = keyvals[0]` — assign the first record dict
when the returned key/value list is truthy (not `None`, not empty). -/
def metaAssign (rec : IRec) (kv : Option (List Dict)) : IRec :=
  match kv with
  | some (d :: _) => { rec with metadata := d }
  | _ => rec

/-- The `while section and section[0] != "STUDY"` loop of `_parse_region`,
entered with a truthy current section row whose head is not `"STUDY"` (the
caller checks that).  Each iteration reads the next key/value block, looks
the section up in the table (KeyError when unknown), stores the block, and
re-tests the condition against the block's closing section row.  The first
argument counts the loop iterations still allowed: every iteration that
re-enters the loop has consumed at least the closing section-header row,
so `lines.length + 1` (what the wrapper below passes) always suffices and
the out-of-fuel branch is unreachable; it exists only to make the
recursion structural. -/
def regionLoopF : Nat → IRec → Row → List Row → Except Err (IRec × List Row)
  | 0, rec, _, lines => .ok (rec, lines)
  | fuel + 1, rec, sec, lines =>
    match pkAux none lines with
    | (kv, nsec, rest) =>
      match alook sectionsTable (sec.headD "") with
      | none => .error .secKeyErr
      | some attrName =>
        match setField rec attrName kv with
        | .error e => .error e
        | .ok rec' =>
          match nsec with
          | some (s0 :: stail) =>
            if s0 = "STUDY" then .ok (rec', rest)
            else regionLoopF fuel rec' (s0 :: stail) rest
          | _ => .ok (rec', rest)

/-- The section loop at its entry point, with enough iterations allowed. -/
def regionLoop (rec : IRec) (sec : Row) (lines : List Row) :
    Except Err (IRec × List Row) :=
  regionLoopF (lines.length + 1) rec sec lines

/-- `InvestigationParser._parse_region`: read the leading key/value block
(assigning `rec.metadata` when it is truthy), then run the section loop.
The boolean is `had_info`: whether the loop body ran at least once. -/
def parseRegion (rec : IRec) (lines : List Row) :
    Except Err (IRec × Bool × List Row) :=
  match pkAux none lines with
  | (kv, sec, rest) =>
    let rec1 := metaAssign rec kv
    match sec with
    | some (s0 :: stail) =>
      if s0 = "STUDY" then .ok (rec1, false, rest)
      else
        match regionLoop rec1 (s0 :: stail) rest with
        | .error e => .error e
        | .ok (r, rest') => .ok (r, true, rest')
    | _ => .ok (rec1, false, rest)

/-- The `while 1` study loop of `InvestigationParser.parse`: parse regions
into fresh `Study()` records, keeping each that had section info, stopping
at the first that had none.  Fuel as in `regionLoopF`: every iteration that
keeps looping had `had_info`, which consumes at least one row, so
`lines.length + 1` iterations always suffice. -/
def studyLoopF : Nat → List Row → Except Err (List IRec × List Row)
  | 0, lines => .ok ([], lines)
  | fuel + 1, lines =>
    match parseRegion IRec.init lines with
    | .error e => .error e
    | .ok (study, had, rest) =>
      if had then
        match studyLoopF fuel rest with
        | .error e => .error e
        | .ok (ss, r2) => .ok (study :: ss, r2)
      else .ok ([], rest)

/-- The study loop at its entry point, with enough iterations allowed. -/
def studyLoop (lines : List Row) : Except Err (List IRec × List Row) :=
  studyLoopF (lines.length + 1) lines

/-- `InvestigationParser.parse`: filter the raw rows through `_line_iter`,
parse the investigation region, then the studies, then apply the
`SDRF File` backward-compatibility rule. -/
def invParse (rows : List Row) : Except Err (IRec × List IRec) :=
  let lines := lineIter rows
  match parseRegion IRec.init lines with
  | .error e => .error e
  | .ok (irec, _, rest) =>
    match studyLoop rest with
    | .error e => .error e
    | .ok (studies, _) =>
      let studies :=
        match alook irec.metadata "SDRF File" with
        | some v => studies ++ [{ IRec.init with metadata := [("Study File Name", v)] }]
        | none => studies
      .ok (irec, studies)

/-- The whole pipeline of `parse`: `InvestigationParser.parse` on the
investigation file's rows followed by `StudyAssayParser.parse`, with `dir`
the directory of the investigation file. -/
def isatabParse (fs : Fs) (dir : String) (rows : List Row) :
    Except Err (IRec × List StudyOut) :=
  match invParse rows with
  | .error e => .error e
  | .ok (irec, studies) =>
    match saParse fs dir studies with
    | .error e => .error e
    | .ok outs => .ok (irec, outs)

/-- Between two node maps: every entry survives with its creation-time
fields (`nid`, `ntype`, `nsubtype`, `label`) unchanged. -/
def preservesNodes (m m' : NodeMap) : Prop :=
  ∀ k n, alook m k = some n → ∃ n', alook m' k = some n' ∧
    n'.nid = n.nid ∧ n'.ntype = n.ntype ∧ n'.nsubtype = n.nsubtype ∧ n'.label = n.label

/-- The edge invariant of a node mapping: every node records its own id,
never itself as parent or child, and the parent/child edge sets are
mutually symmetric. -/
def EdgeInv (m : NodeMap) : Prop :=
  (∀ k n, alook m k = some n → n.nid = k ∧ k ∉ n.children ∧ k ∉ n.parents) ∧
  (∀ k n c, alook m k = some n →
    (c ∈ n.children ↔ ∃ w, alook m c = some w ∧ k ∈ w.parents)) ∧
  (∀ k n p, alook m k = some n →
    (p ∈ n.parents ↔ ∃ w, alook m p = some w ∧ k ∈ w.children))

/-- The invariant of the row cursor: the mapping satisfies the edge
invariant and the last node, when set, is a key of the mapping. -/
def StInv (st : RowSt) : Prop :=
  EdgeInv st.nodes ∧ ∀ lk, st.lastNode = some lk → ahas st.nodes lk = true

/-- Concrete filesystem of the testable scenario in the specification: one
study file with headers `Source Name`, `Sample Name` and three data rows. -/
def c5fs : Fs := fun p =>
  if p = "s.txt" then
    some [["Source Name", "Sample Name"],
          ["src1", "samp1"], ["src1", "samp2"], ["src2", "samp3"]]
  else none

/-- Investigation file of that scenario: one STUDY region whose metadata
names the study file, closed by a (here empty) section. -/
def c5rows : List Row :=
  [["STUDY"], ["Study File Name", "s.txt"], ["STUDY FACTORS"]]

/-- A filesystem holding a study file that exists but has a header row
only, so its collapsed node mapping is empty. -/
def c4fs : Fs := fun p =>
  if p = "s.txt" then some [["Source Name"]] else none

/-- A study whose metadata names that file. -/
def c4study : IRec := { metadata := [("Study File Name", "s.txt")] }

/-!
Association-list lemmas used throughout the development.
-/

section Alist

variable {κ β : Type}

theorem akeys_cons (p : κ × β) (m : List (κ × β)) :
    akeys (p :: m) = p.1 :: akeys m :=
  rfl

theorem akeys_append (m l : List (κ × β)) :
    akeys (m ++ l) = akeys m ++ akeys l := by
  simp [akeys]

end Alist

section AlistDec

variable {κ β : Type} [DecidableEq κ]

theorem amod_cons (p : κ × β) (m : List (κ × β)) (k : κ) (f : β → β) :
    amod (p :: m) k f = (if p.1 = k then (p.1, f p.2) else p) :: amod m k f :=
  rfl

theorem alook_append_some {m l : List (κ × β)} {k : κ} {v : β}
    (h : alook m k = some v) : alook (m ++ l) k = some v := by
  induction m with
  | nil => simp [alook] at h
  | cons p m ih =>
    by_cases hpk : p.1 = k
    · simp only [alook, hpk, if_true] at h
      simpa [alook, hpk] using h
    · simp only [alook, hpk, if_false] at h
      simpa [alook, hpk] using ih h

theorem alook_append_none {m l : List (κ × β)} {k : κ}
    (h : alook m k = none) : alook (m ++ l) k = alook l k := by
  induction m with
  | nil => simp [alook]
  | cons p m ih =>
    by_cases hpk : p.1 = k
    · simp [alook, hpk] at h
    · simp only [alook, hpk, if_false] at h
      simpa [alook, hpk] using ih h

theorem alook_amod_self (m : List (κ × β)) (k : κ) (f : β → β) :
    alook (amod m k f) k = (alook m k).map f := by
  induction m with
  | nil => simp [alook, amod]
  | cons p m ih =>
    rw [amod_cons]
    by_cases hpk : p.1 = k
    · rw [if_pos hpk]
      simp [alook, hpk]
    · rw [if_neg hpk]
      simp [alook, hpk, ih]

theorem alook_amod_ne (m : List (κ × β)) (k : κ) (f : β → β) {x : κ}
    (hxk : x ≠ k) : alook (amod m k f) x = alook m x := by
  induction m with
  | nil => simp [alook, amod]
  | cons p m ih =>
    rw [amod_cons]
    by_cases hpk : p.1 = k
    · have hpx : p.1 ≠ x := fun hh => hxk (hh ▸ hpk)
      rw [if_pos hpk]
      simp [alook, hpk ▸ hpx, hpx, ih]
    · rw [if_neg hpk]
      by_cases hpx : p.1 = x
      · simp [alook, hpx]
      · simp [alook, hpx, ih]

theorem alook_aput_self (d : List (κ × β)) (k : κ) (v : β) :
    alook (aput d k v) k = some v := by
  induction d with
  | nil => simp [alook, aput]
  | cons p m ih =>
    by_cases hpk : p.1 = k
    · simp [alook, aput, hpk]
    · simp [alook, aput, hpk, ih]

theorem alook_aput_ne (d : List (κ × β)) (k : κ) (v : β) {x : κ}
    (hxk : x ≠ k) : alook (aput d k v) x = alook d x := by
  have hkx : k ≠ x := Ne.symm hxk
  induction d with
  | nil => simp [alook, aput, hkx]
  | cons p m ih =>
    by_cases hpk : p.1 = k
    · have hpx : p.1 ≠ x := hpk ▸ hkx
      simp [alook, aput, hpk, hkx, hpx]
    · simp only [aput, hpk, if_false]
      by_cases hpx : p.1 = x
      · simp [alook, hpx]
      · simp [alook, hpx, ih]

theorem akeys_amod (m : List (κ × β)) (k : κ) (f : β → β) :
    akeys (amod m k f) = akeys m := by
  induction m with
  | nil => rfl
  | cons p m ih =>
    rw [amod_cons]
    by_cases hpk : p.1 = k
    · rw [if_pos hpk]
      simpa [akeys] using ih
    · rw [if_neg hpk]
      simpa [akeys] using ih

theorem mem_akeys_iff (m : List (κ × β)) (x : κ) :
    x ∈ akeys m ↔ (alook m x).isSome := by
  induction m with
  | nil => simp [akeys, alook]
  | cons p m ih =>
    rw [akeys_cons, List.mem_cons]
    by_cases hpx : p.1 = x
    · simp [alook, hpx]
    · have hxp : x ≠ p.1 := fun hh => hpx hh.symm
      simp only [alook, hpx, if_false]
      simp [hxp, ih]

theorem mem_akeys_aput (d : List (κ × β)) (k : κ) (v : β) {x : κ}
    (h : x ∈ akeys (aput d k v)) : x ∈ akeys d ∨ x = k := by
  induction d with
  | nil =>
    simp only [aput, akeys, List.map_cons, List.map_nil, List.mem_singleton] at h
    exact Or.inr h
  | cons p m ih =>
    by_cases hpk : p.1 = k
    · simp only [aput, hpk, if_true, akeys, List.map_cons] at h
      rcases List.mem_cons.mp h with hh | hh
      · exact Or.inr hh
      · exact Or.inl (by simp only [akeys, List.map_cons, List.mem_cons]; exact Or.inr hh)
    · simp only [aput, hpk, if_false, akeys, List.map_cons] at h
      rcases List.mem_cons.mp h with hh | hh
      · exact Or.inl (by simp [akeys, hh])
      · rcases ih hh with h1 | h1
        · exact Or.inl (by simp only [akeys, List.map_cons, List.mem_cons]; exact Or.inr h1)
        · exact Or.inr h1

end AlistDec

/-!
The claims.
-/

/-- Claim C7: the claim states that `_slug` keeps exactly the ASCII digits,
lowercase letters, dot, dash and underscore and replaces every other
character with a dash.  The code is wrong: in `[^0-9a-z.-_]` the `.-_` is a
code-point range, so `_slug` also keeps `/`, `:`, `;`, `<`, `=`, `>`, `?`,
`@`, `[`, `\`, `]` and `^`.  At the input `"a/b"` the code returns
`"a/b"` where the documented transform (`sLugClaim`) returns `"a-b"`. -/
theorem c7_slug_eval :
    sLug "a/b" = "a/b" ∧ sLugClaim "a/b" = "a-b" ∧ sLug "a/b" ≠ sLugClaim "a/b" :=
  ⟨rfl, rfl, by decide⟩

/-- Claim C6: the claim (following the spec's stated design intent) wants a
qualifier or attribute column that appears before any node column of a row
to fail with an explicit ParseError.  The code instead dereferences the
absent `last_node` (`None.metadata`, an AttributeError): on header
`Characteristics[Organism]` with cell `Human`, and on qualifier header
`Unit` with non-empty cell `mg`, the collapse stops with the
null-dereference fault `noneMeta`, not a parse error. -/
theorem c6_null_deref_eval :
    collapseRows ["Characteristics[Organism]"] [["Human"]] = .error .noneMeta ∧
    collapseRows ["Unit"] [["mg"]] = .error .noneMeta :=
  ⟨rfl, rfl⟩

/-- Claim C5: parsing an investigation file with one STUDY region whose
`Study File Name` points to the 3-row file with headers `Source Name`,
`Sample Name` and rows `(src1,samp1)`, `(src1,samp2)`, `(src2,samp3)`
yields one study with exactly the five nodes `src1`, `samp1`, `samp2`,
`src2`, `samp3` in first-encounter order, where the children of `src1` are
`{samp1, samp2}` and the children of `src2` are `{samp3}`. -/
theorem c5_scenario :
    (isatabParse c5fs "" c5rows).map (fun p => p.2.map fun so =>
      (akeys so.nodes,
       (alook so.nodes "src1").map IsaNode.children,
       (alook so.nodes "src2").map IsaNode.children)) =
    .ok [(["src1", "samp1", "samp2", "src2", "samp3"],
          some ["samp1", "samp2"], some ["samp3"])] :=
  rfl

/-- Claim C4, counterexample: the claim says a study is dropped exactly
when its file does not exist, so a study whose file exists is retained.
But `parse` tests the truthiness of the collapsed mapping: for a study
file that exists with only a header row, the mapping is empty, and the
study is dropped although `c4fs "s.txt"` is not `none`. -/
theorem c4_drop_counterexample :
    c4fs (pjoin "" "s.txt") = some [["Source Name"]] ∧
    saParse c4fs "" [c4study] = .ok [] :=
  ⟨rfl, rfl⟩

/-- Claim C1, counterexample: the claim says the metadata of a node shared
by two rows is the union of both rows' attribute/qualifier contributions.
Both rows here contribute `Characteristics[Organism]`, yet a later
bracket-free `Characteristics` column overwrites the whole inner dict with
`{'value': ...}`, so the final metadata of `s1` holds only
`{value: "c2"}` — the `Organism` contributions are gone. -/
theorem c1_union_counterexample :
    (collapseRows ["Sample Name", "Characteristics[Organism]", "Characteristics"]
        [["s1", "Human", "c1"], ["s1", "Mouse", "c2"]]).map
      (fun m => (alook m "s1").map fun n => alook n.metadata (some "Characteristics"))
      = .ok (some (some [("value", "c2")])) :=
  rfl

/-- Claim C10, counterexample: the claim says that when every row's first
node column has kind Name or File the collapse is total.  With headers
`Comment`, `Sample Name` the first node column has kind Name, yet the
attribute column `Comment` precedes it and dereferences the absent
`last_node`, so the collapse still faults. -/
theorem c10_total_counterexample :
    firstNodeKind ["Comment", "Sample Name"] = some .name ∧
    collapseRows ["Comment", "Sample Name"] [["c", "s"]] = .error .noneMeta :=
  ⟨rfl, rfl⟩

theorem ahas_amod (m : NodeMap) (k : String) (f : IsaNode → IsaNode)
    (x : String) : ahas (amod m k f) x = ahas m x := by
  by_cases hx : x = k
  · subst hx
    unfold ahas
    rw [alook_amod_self]
    cases alook m x <;> rfl
  · unfold ahas
    rw [alook_amod_ne _ _ _ hx]

theorem ahas_addEdge (m : NodeMap) (pk ck x : String) :
    ahas (addEdge m pk ck) x = ahas m x := by
  unfold addEdge
  rw [ahas_amod, ahas_amod]

theorem str_data_inj {a b : String} (h : a.data = b.data) : a = b := by
  cases a
  cases b
  exact congrArg String.mk h

/-- Claim C9: header classification applies the qualifier check first, then
the node check, then the attribute fallback.  `Term Source REF` matches
both the qualifier keyword list and the node pattern (as subtype
`Term Source`, kind REF) but is classified as a qualifier; any header that
fails the qualifier check and matches `<Subtype> <Kind>` is a node column;
and the node's `ntype` comes from the fixed lookup
`{name → entity, file → file, ref → reference}`, which is what the
`IsaNode` constructor computes for each of the three kinds. -/
theorem c9_classifier_precedence :
    (isQualHeader "Term Source REF" = true ∧
     nodesMatch "Term Source REF" = some ("Term Source", NodeKind.ref) ∧
     classifyHeader "Term Source REF" = .qual) ∧
    (∀ h, isQualHeader h = true → classifyHeader h = .qual) ∧
    (∀ h sub k, isQualHeader h = false → nodesMatch h = some (sub, k) →
      classifyHeader h = .node sub k) ∧
    (alook IsaNode.typesTable "name" = some "entity" ∧
     alook IsaNode.typesTable "file" = some "file" ∧
     alook IsaNode.typesTable "ref" = some "reference") ∧
    (∀ nid sub label,
      (mkIsaNode nid .name sub label).ntype = "entity" ∧
      (mkIsaNode nid .file sub label).ntype = "file" ∧
      (mkIsaNode nid .ref sub label).ntype = "reference") := by
  refine ⟨⟨rfl, rfl, rfl⟩, ?_, ?_, ⟨rfl, rfl, rfl⟩, fun nid sub label => ⟨rfl, rfl, rfl⟩⟩
  · intro h hq
    simp [classifyHeader, hq]
  · intro h sub k hq hn
    simp [classifyHeader, hq, hn]

/-- Witness for C9 at a concrete header: `Sample Name` fails the qualifier
check, matches the node pattern, and is classified as a Name-kind node. -/
theorem c9_classifier_precedence_witness :
    classifyHeader "Sample Name" = .node "Sample" .name :=
  c9_classifier_precedence.2.2.1 "Sample Name" "Sample" .name rfl rfl

/-- Claim C3: a REF node column following an earlier node column gets the
id `last_node.nid ++ "-ref-" ++ _slug(cell)` — the step leaves that id as
the last node and a node under that id in the mapping — and the
namespacing is injective in the predecessor: distinct predecessor ids give
distinct REF node ids for the same REF label. -/
theorem c3_ref_namespacing :
    (∀ (st : RowSt) (h sub lk cell : String) (st' : RowSt),
      classifyHeader h = .node sub .ref →
      st.lastNode = some lk →
      stepCell st h (some cell) = .ok st' →
      st'.lastNode = some (lk ++ "-ref-" ++ sLug cell) ∧
      ahas st'.nodes (lk ++ "-ref-" ++ sLug cell) = true) ∧
    (∀ (lk1 lk2 cell : String), lk1 ≠ lk2 →
      lk1 ++ "-ref-" ++ sLug cell ≠ lk2 ++ "-ref-" ++ sLug cell) := by
  constructor
  · intro st h sub lk cell st' hcl hlast hstep
    unfold stepCell at hstep
    rw [hcl, hlast] at hstep
    simp only [Except.ok.injEq] at hstep
    subst hstep
    refine ⟨rfl, ?_⟩
    have hlk : lk ≠ lk ++ "-ref-" ++ sLug cell := by
      intro hh
      have hd : lk.data = (lk.data ++ "-ref-".data) ++ (sLug cell).data :=
        congrArg String.data hh
      have hlen := congrArg List.length hd
      have h5 : ("-ref-" : String).data.length = 5 := rfl
      simp only [List.length_append, h5] at hlen
      omega
    rw [if_neg hlk, ahas_addEdge]
    by_cases hhas : ahas st.nodes (lk ++ "-ref-" ++ sLug cell) = true
    · rw [if_pos hhas]
      exact hhas
    · rw [if_neg hhas]
      have hnone : alook st.nodes (lk ++ "-ref-" ++ sLug cell) = none :=
        Option.not_isSome_iff_eq_none.mp (by simpa [ahas] using hhas)
      unfold ahas
      rw [alook_append_none hnone]
      simp [alook]
  · intro lk1 lk2 cell hne heq
    apply hne
    have hd := congrArg String.data heq
    have hd' : lk1.data ++ ("-ref-".data ++ (sLug cell).data)
        = lk2.data ++ ("-ref-".data ++ (sLug cell).data) := by
      simpa [List.append_assoc] using hd
    exact str_data_inj (List.append_cancel_right hd')

/-- Witness for C3: a REF column `Protocol REF` with cell `P-X` after a
node `sample1` yields the namespaced node `sample1-ref-p-x`, and two
distinct predecessors `a`, `b` give distinct ids for the same label. -/
theorem c3_ref_namespacing_witness :
    ((⟨[("sample1", ⟨"sample1", "entity", "sample", "sample1", [],
          ["sample1-ref-p-x"], []⟩),
        ("sample1-ref-p-x", ⟨"sample1-ref-p-x", "reference", "protocol", "P-X",
          ["sample1"], [], []⟩)],
       some "sample1-ref-p-x", none⟩ : RowSt).lastNode
        = some ("sample1" ++ "-ref-" ++ sLug "P-X") ∧
     ahas (⟨[("sample1", ⟨"sample1", "entity", "sample", "sample1", [],
          ["sample1-ref-p-x"], []⟩),
        ("sample1-ref-p-x", ⟨"sample1-ref-p-x", "reference", "protocol", "P-X",
          ["sample1"], [], []⟩)],
       some "sample1-ref-p-x", none⟩ : RowSt).nodes
        ("sample1" ++ "-ref-" ++ sLug "P-X") = true) ∧
    ("a" ++ "-ref-" ++ sLug "P-X" ≠ "b" ++ "-ref-" ++ sLug "P-X") :=
  ⟨c3_ref_namespacing.1
      ⟨[("sample1", mkIsaNode "sample1" .name "Sample" "sample1")], some "sample1", none⟩
      "Protocol REF" "Protocol" "sample1" "P-X" _ rfl rfl rfl,
   c3_ref_namespacing.2 "a" "b" "P-X" (by decide)⟩




theorem stepCell_noneNid_ref (st : RowSt) (h : String) (c : Option String)
    (he : stepCell st h c = .error .noneNid) :
    (∃ sub, classifyHeader h = .node sub .ref) ∧ st.lastNode = none := by
  unfold stepCell at he
  split at he
  case _ heq =>
    cases c with
    | none => simp at he
    | some cell =>
      by_cases hc : cell = ""
      · simp [hc] at he
      · simp only [hc, if_false] at he
        cases hln : st.lastNode with
        | none => rw [hln] at he; simp at he
        | some k => rw [hln] at he; simp at he
  case _ sub kind heq =>
    cases c with
    | none => simp at he
    | some cell =>
      simp only at he
      cases kind with
      | ref =>
        cases hln : st.lastNode with
        | none => exact ⟨⟨sub, heq⟩, rfl⟩
        | some k => rw [hln] at he; simp at he
      | name =>
        cases hln : st.lastNode with
        | none => rw [hln] at he; simp at he
        | some k => rw [hln] at he; simp at he
      | file =>
        cases hln : st.lastNode with
        | none => rw [hln] at he; simp at he
        | some k => rw [hln] at he; simp at he
  case _ g1 g2 heq =>
    by_cases hg : g2 = ""
    · simp only [hg, if_pos rfl] at he
      cases c with
      | none => simp at he
      | some cell =>
        cases hln : st.lastNode with
        | none => rw [hln] at he; simp at he
        | some k => rw [hln] at he; simp at he
    · simp only [hg, if_false] at he
      cases hln : st.lastNode with
      | none => rw [hln] at he; simp at he
      | some k =>
        rw [hln] at he
        cases c with
        | none => simp at he
        | some cell => simp at he
  case _ heq => simp at he



theorem stepCell_ok_lastNode (st : RowSt) (h : String) (c : Option String)
    (st' : RowSt) (hok : stepCell st h c = .ok st') :
    (∀ sub k, classifyHeader h = .node sub k → st'.lastNode.isSome) ∧
    ((∀ sub k, classifyHeader h ≠ .node sub k) → st'.lastNode = st.lastNode) := by
  unfold stepCell at hok
  split at hok
  case _ heq =>
    refine ⟨fun sub k hk => absurd (heq ▸ hk) (by simp), fun _ => ?_⟩
    cases c with
    | none => simp at hok
    | some cell =>
      by_cases hc : cell = ""
      · simp [hc] at hok
        rw [← hok]
      · simp only [hc, if_false] at hok
        cases hln : st.lastNode with
        | none => rw [hln] at hok; simp at hok
        | some k =>
          rw [hln] at hok
          simp at hok
          rw [← hok]
  case _ sub kind heq =>
    refine ⟨fun sub' k' _ => ?_, fun hnot => absurd heq (hnot sub kind)⟩
    cases c with
    | none => simp at hok
    | some cell =>
      simp only at hok
      cases kind with
      | ref =>
        cases hln : st.lastNode with
        | none => rw [hln] at hok; simp at hok
        | some k =>
          rw [hln] at hok
          simp only [Except.ok.injEq] at hok
          rw [← hok]
          rfl
      | name =>
        cases hln : st.lastNode with
        | none =>
          rw [hln] at hok
          simp only [Except.ok.injEq] at hok
          rw [← hok]
          rfl
        | some k =>
          rw [hln] at hok
          simp only [Except.ok.injEq] at hok
          rw [← hok]
          rfl
      | file =>
        cases hln : st.lastNode with
        | none =>
          rw [hln] at hok
          simp only [Except.ok.injEq] at hok
          rw [← hok]
          rfl
        | some k =>
          rw [hln] at hok
          simp only [Except.ok.injEq] at hok
          rw [← hok]
          rfl
  case _ g1 g2 heq =>
    refine ⟨fun sub k hk => absurd (heq ▸ hk) (by simp), fun _ => ?_⟩
    by_cases hg : g2 = ""
    · subst hg
      rw [if_pos rfl] at hok
      cases c with
      | none => simp at hok
      | some cell =>
        cases hln : st.lastNode with
        | none => rw [hln] at hok; simp at hok
        | some k =>
          rw [hln] at hok
          simp only [Except.ok.injEq] at hok
          rw [← hok]
    · simp only [hg, if_false] at hok
      cases hln : st.lastNode with
      | none => rw [hln] at hok; simp at hok
      | some k =>
        rw [hln] at hok
        cases c with
        | none => simp at hok
        | some cell =>
          simp only [Except.ok.injEq] at hok
          rw [← hok]
  case _ heq => simp at hok



theorem padCells_map_fst : ∀ (hs : List String) (row : List String),
    (padCells hs row).map Prod.fst = hs := by
  intro hs
  induction hs with
  | nil => intro row; cases row <;> rfl
  | cons h hs ih =>
    intro row
    cases row with
    | nil => simpa [padCells] using ih []
    | cons c cs => simpa [padCells] using ih cs

theorem firstNodeKind_cons_not_node (h : String) (hs : List String)
    (hn : ∀ sub k, classifyHeader h ≠ .node sub k) :
    firstNodeKind (h :: hs) = firstNodeKind hs := by
  cases hcl : classifyHeader h with
  | node sub k => exact absurd hcl (hn sub k)
  | qual => simp [firstNodeKind, hcl]
  | attr g1 g2 => simp [firstNodeKind, hcl]
  | malformed => simp [firstNodeKind, hcl]

theorem stepCells_some_no_refFault : ∀ (ps : List (String × Option String)) (st : RowSt),
    st.lastNode.isSome → stepCells st ps ≠ .error .noneNid := by
  intro ps
  induction ps with
  | nil => intro st hs hcon; simp [stepCells] at hcon
  | cons p ps ih =>
    intro st hs hcon
    rcases p with ⟨h, c⟩
    unfold stepCells at hcon
    cases hsc : stepCell st h c with
    | error e =>
      rw [hsc] at hcon
      simp only [Except.error.injEq] at hcon
      subst hcon
      obtain ⟨-, hnone⟩ := stepCell_noneNid_ref st h c hsc
      rw [hnone] at hs
      simp at hs
    | ok st' =>
      rw [hsc] at hcon
      have hlast := stepCell_ok_lastNode st h c st' hsc
      by_cases hnode : ∃ sub k, classifyHeader h = .node sub k
      · obtain ⟨sub, k, hk⟩ := hnode
        exact ih st' (hlast.1 sub k hk) hcon
      · push_neg at hnode
        have := hlast.2 hnode
        exact ih st' (this ▸ hs) hcon

theorem stepCells_none_no_refFault : ∀ (ps : List (String × Option String)) (st : RowSt),
    st.lastNode = none → firstNodeKind (ps.map Prod.fst) ≠ some .ref →
    stepCells st ps ≠ .error .noneNid := by
  intro ps
  induction ps with
  | nil => intro st hn hf hcon; simp [stepCells] at hcon
  | cons p ps ih =>
    intro st hn hf hcon
    rcases p with ⟨h, c⟩
    unfold stepCells at hcon
    cases hsc : stepCell st h c with
    | error e =>
      rw [hsc] at hcon
      simp only [Except.error.injEq] at hcon
      subst hcon
      obtain ⟨⟨sub, href⟩, -⟩ := stepCell_noneNid_ref st h c hsc
      apply hf
      simp only [List.map_cons]
      unfold firstNodeKind
      rw [href]
    | ok st' =>
      rw [hsc] at hcon
      have hlast := stepCell_ok_lastNode st h c st' hsc
      by_cases hnode : ∃ sub k, classifyHeader h = .node sub k
      · obtain ⟨sub, k, hk⟩ := hnode
        exact stepCells_some_no_refFault ps st' (hlast.1 sub k hk) hcon
      · push_neg at hnode
        have h2 := hlast.2 hnode
        have hf' : firstNodeKind (ps.map Prod.fst) ≠ some .ref := by
          intro hcontra
          apply hf
          simp only [List.map_cons]
          rw [firstNodeKind_cons_not_node h _ hnode]
          exact hcontra
        exact ih st' (h2 ▸ hn) hf' hcon

theorem collapseRows_no_refFault (headers : List String) (rows : List (List String))
    (hf : firstNodeKind headers ≠ some .ref) :
    collapseRows headers rows ≠ .error .noneNid := by
  unfold collapseRows
  have hrow : ∀ (row : List String) (m : NodeMap),
      processRow headers row m ≠ .error .noneNid := by
    intro row m hcon
    unfold processRow at hcon
    cases hsc : stepCells ⟨m, none, none⟩ (padCells headers row) with
    | error e =>
      rw [hsc] at hcon
      simp only [Except.error.injEq] at hcon
      subst hcon
      exact stepCells_none_no_refFault (padCells headers row) ⟨m, none, none⟩ rfl
        (by rw [padCells_map_fst]; exact hf) hsc
    | ok st' => rw [hsc] at hcon; simp at hcon
  have haux : ∀ (rs : List (List String)) (m : NodeMap),
      List.foldlM (fun m r => processRow headers r m) m rs ≠ .error .noneNid := by
    intro rs
    induction rs with
    | nil => intro m hcon; simp [pure, Except.pure] at hcon
    | cons r rs ih =>
      intro m hcon
      rw [List.foldlM_cons] at hcon
      cases hpr : processRow headers r m with
      | error e =>
        rw [hpr] at hcon
        have hcon2 : Except.error e = Except.error Err.noneNid := hcon
        simp only [Except.error.injEq] at hcon2
        subst hcon2
        exact hrow r m hpr
      | ok m2 =>
        rw [hpr] at hcon
        have hcon2 : List.foldlM (fun m r => processRow headers r m) m2 rs
            = Except.error Err.noneNid := hcon
        exact ih m2 hcon2
  exact haux rows []

/-- Claim C10 (amended): a REF-kind node column reached before any node
column has been processed in the row dereferences the absent `last_node`
while building the namespaced id — `collapseRows` with a leading
`Protocol REF` column faults with exactly that error — and when the first
node column of the headers has kind Name or File, that fault branch is
unreachable: the collapse never fails with the missing-predecessor
dereference (though it can still fault in other branches, so it is not
total). -/
theorem c10_ref_fault_guard :
    (collapseRows ["Protocol REF"] [["p1"]] = .error .noneNid) ∧
    (∀ headers rows, firstNodeKind headers ≠ some .ref →
      collapseRows headers rows ≠ .error .noneNid) :=
  ⟨rfl, fun headers rows hf => collapseRows_no_refFault headers rows hf⟩

/-- Witness for C10 at concrete headers whose first node column has kind
Name: the collapse cannot fail with the REF-predecessor fault. -/
theorem c10_ref_fault_guard_witness :
    collapseRows ["Source Name"] [["x"]] ≠ .error .noneNid :=
  c10_ref_fault_guard.2 ["Source Name"] [["x"]] (by decide)



theorem preservesNodes_refl (m : NodeMap) : preservesNodes m m :=
  fun _ n hk => ⟨n, hk, rfl, rfl, rfl, rfl⟩

theorem preservesNodes_trans {m1 m2 m3 : NodeMap}
    (h12 : preservesNodes m1 m2) (h23 : preservesNodes m2 m3) :
    preservesNodes m1 m3 := by
  intro k n hk
  obtain ⟨n2, hk2, e1, e2, e3, e4⟩ := h12 k n hk
  obtain ⟨n3, hk3, f1, f2, f3, f4⟩ := h23 k n2 hk2
  exact ⟨n3, hk3, f1.trans e1, f2.trans e2, f3.trans e3, f4.trans e4⟩

theorem preservesNodes_amod (m : NodeMap) (key : String) (f : IsaNode → IsaNode)
    (hf : ∀ n, (f n).nid = n.nid ∧ (f n).ntype = n.ntype ∧
      (f n).nsubtype = n.nsubtype ∧ (f n).label = n.label) :
    preservesNodes m (amod m key f) := by
  intro k n hk
  by_cases hkey : k = key
  · subst hkey
    rw [alook_amod_self, hk]
    exact ⟨f n, rfl, (hf n).1, (hf n).2.1, (hf n).2.2.1, (hf n).2.2.2⟩
  · rw [alook_amod_ne _ _ _ hkey]
    exact ⟨n, hk, rfl, rfl, rfl, rfl⟩

theorem preservesNodes_append (m l : NodeMap) : preservesNodes m (m ++ l) :=
  fun _ n hk => ⟨n, alook_append_some hk, rfl, rfl, rfl, rfl⟩

theorem preservesNodes_addEdge (m : NodeMap) (pk ck : String) :
    preservesNodes m (addEdge m pk ck) := by
  unfold addEdge
  exact preservesNodes_trans
    (preservesNodes_amod m pk (addChild ck) fun n => ⟨rfl, rfl, rfl, rfl⟩)
    (preservesNodes_amod _ ck (addParent pk) fun n => ⟨rfl, rfl, rfl, rfl⟩)

theorem stepCell_preservesNodes (st : RowSt) (h : String) (c : Option String)
    (st' : RowSt) (hok : stepCell st h c = .ok st') :
    preservesNodes st.nodes st'.nodes := by
  unfold stepCell at hok
  split at hok
  case _ heq =>
    cases c with
    | none => simp at hok
    | some cell =>
      by_cases hc : cell = ""
      · simp [hc] at hok
        rw [← hok]
        exact preservesNodes_refl _
      · simp only [hc, if_false] at hok
        cases hln : st.lastNode with
        | none => rw [hln] at hok; simp at hok
        | some k =>
          rw [hln] at hok
          simp only [Except.ok.injEq] at hok
          rw [← hok]
          exact preservesNodes_amod st.nodes k
            (fun n => { n with metadata := metaQualPut n.metadata st.lastAttr h cell })
            (fun n => ⟨rfl, rfl, rfl, rfl⟩)
  case _ sub kind heq =>
    cases c with
    | none => simp at hok
    | some cell =>
      simp only at hok
      have hm1 : preservesNodes st.nodes
          (if ahas st.nodes (sLug cell) then st.nodes
           else st.nodes ++ [(sLug cell, mkIsaNode (sLug cell) kind sub cell)]) := by
        by_cases hh : ahas st.nodes (sLug cell) = true
        · rw [if_pos hh]; exact preservesNodes_refl _
        · rw [if_neg hh]; exact preservesNodes_append _ _
      cases kind with
      | ref =>
        cases hln : st.lastNode with
        | none => rw [hln] at hok; simp at hok
        | some lk =>
          rw [hln] at hok
          simp only [Except.ok.injEq] at hok
          rw [← hok]
          have hm1' : preservesNodes st.nodes
              (if ahas st.nodes (lk ++ "-ref-" ++ sLug cell) then st.nodes
               else st.nodes ++ [(lk ++ "-ref-" ++ sLug cell,
                 mkIsaNode (lk ++ "-ref-" ++ sLug cell) .ref sub cell)]) := by
            by_cases hh : ahas st.nodes (lk ++ "-ref-" ++ sLug cell) = true
            · rw [if_pos hh]; exact preservesNodes_refl _
            · rw [if_neg hh]; exact preservesNodes_append _ _
          by_cases hlk : lk = lk ++ "-ref-" ++ sLug cell
          · simp only [if_pos hlk]
            exact hm1'
          · simp only [if_neg hlk]
            exact preservesNodes_trans hm1' (preservesNodes_addEdge _ _ _)
      | name =>
        cases hln : st.lastNode with
        | none =>
          rw [hln] at hok
          simp only [Except.ok.injEq] at hok
          rw [← hok]
          exact hm1
        | some lk =>
          rw [hln] at hok
          simp only [Except.ok.injEq] at hok
          rw [← hok]
          by_cases hlk : lk = sLug cell
          · simp only [if_pos hlk]
            exact hm1
          · simp only [if_neg hlk]
            exact preservesNodes_trans hm1 (preservesNodes_addEdge _ _ _)
      | file =>
        cases hln : st.lastNode with
        | none =>
          rw [hln] at hok
          simp only [Except.ok.injEq] at hok
          rw [← hok]
          exact hm1
        | some lk =>
          rw [hln] at hok
          simp only [Except.ok.injEq] at hok
          rw [← hok]
          by_cases hlk : lk = sLug cell
          · simp only [if_pos hlk]
            exact hm1
          · simp only [if_neg hlk]
            exact preservesNodes_trans hm1 (preservesNodes_addEdge _ _ _)
  case _ g1 g2 heq =>
    by_cases hg : g2 = ""
    · subst hg
      rw [if_pos rfl] at hok
      cases c with
      | none => simp at hok
      | some cell =>
        cases hln : st.lastNode with
        | none => rw [hln] at hok; simp at hok
        | some k =>
          rw [hln] at hok
          simp only [Except.ok.injEq] at hok
          rw [← hok]
          exact preservesNodes_amod st.nodes k
            (fun n => { n with metadata := metaValuePut n.metadata (some g1) cell })
            (fun n => ⟨rfl, rfl, rfl, rfl⟩)
    · simp only [hg, if_false] at hok
      cases hln : st.lastNode with
      | none => rw [hln] at hok; simp at hok
      | some k =>
        rw [hln] at hok
        cases c with
        | none => simp at hok
        | some cell =>
          simp only [Except.ok.injEq] at hok
          rw [← hok]
          exact preservesNodes_amod st.nodes k
            (fun n => { n with metadata := metaQualPut n.metadata (some g1) g2 cell })
            (fun n => ⟨rfl, rfl, rfl, rfl⟩)
  case _ heq => simp at hok



theorem nodup_akeys_append_fresh (m : NodeMap) (nid : String) (node : IsaNode)
    (hnd : (akeys m).Nodup) (hfresh : ¬ahas m nid = true) :
    (akeys (m ++ [(nid, node)])).Nodup := by
  rw [akeys_append]
  have hnotin : nid ∉ akeys m := by
    rw [mem_akeys_iff]
    simpa [ahas] using hfresh
  refine List.Nodup.append hnd (List.nodup_singleton _) ?_
  intro a ha hb
  rw [akeys_cons] at hb
  simp only [akeys, List.map_nil, List.mem_cons, List.not_mem_nil, or_false] at hb
  exact hnotin (hb ▸ ha)

theorem stepCell_nodupKeys (st : RowSt) (h : String) (c : Option String)
    (st' : RowSt) (hok : stepCell st h c = .ok st')
    (hnd : (akeys st.nodes).Nodup) : (akeys st'.nodes).Nodup := by
  unfold stepCell at hok
  split at hok
  case _ heq =>
    cases c with
    | none => simp at hok
    | some cell =>
      by_cases hc : cell = ""
      · simp [hc] at hok
        rw [← hok]
        exact hnd
      · simp only [hc, if_false] at hok
        cases hln : st.lastNode with
        | none => rw [hln] at hok; simp at hok
        | some k =>
          rw [hln] at hok
          simp only [Except.ok.injEq] at hok
          rw [← hok]
          show (akeys (amod st.nodes k fun n =>
            { n with metadata := metaQualPut n.metadata st.lastAttr h cell })).Nodup
          rw [akeys_amod]
          exact hnd
  case _ sub kind heq =>
    cases c with
    | none => simp at hok
    | some cell =>
      simp only at hok
      have hm1 : ∀ nid node, (akeys (if ahas st.nodes nid then st.nodes
           else st.nodes ++ [(nid, node)])).Nodup := by
        intro nid node
        by_cases hh : ahas st.nodes nid = true
        · rw [if_pos hh]; exact hnd
        · rw [if_neg hh]; exact nodup_akeys_append_fresh st.nodes nid node hnd hh
      have hedge : ∀ (m1 : NodeMap) (lk nid : String), (akeys m1).Nodup →
          (akeys (if lk = nid then m1 else addEdge m1 lk nid)).Nodup := by
        intro m1 lk nid hm
        by_cases hlk : lk = nid
        · rw [if_pos hlk]; exact hm
        · rw [if_neg hlk]
          unfold addEdge
          rw [akeys_amod, akeys_amod]
          exact hm
      cases kind with
      | ref =>
        cases hln : st.lastNode with
        | none => rw [hln] at hok; simp at hok
        | some lk =>
          rw [hln] at hok
          simp only [Except.ok.injEq] at hok
          rw [← hok]
          exact hedge _ lk _ (hm1 _ _)
      | name =>
        cases hln : st.lastNode with
        | none =>
          rw [hln] at hok
          simp only [Except.ok.injEq] at hok
          rw [← hok]
          exact hm1 _ _
        | some lk =>
          rw [hln] at hok
          simp only [Except.ok.injEq] at hok
          rw [← hok]
          exact hedge _ lk _ (hm1 _ _)
      | file =>
        cases hln : st.lastNode with
        | none =>
          rw [hln] at hok
          simp only [Except.ok.injEq] at hok
          rw [← hok]
          exact hm1 _ _
        | some lk =>
          rw [hln] at hok
          simp only [Except.ok.injEq] at hok
          rw [← hok]
          exact hedge _ lk _ (hm1 _ _)
  case _ g1 g2 heq =>
    by_cases hg : g2 = ""
    · subst hg
      rw [if_pos rfl] at hok
      cases c with
      | none => simp at hok
      | some cell =>
        cases hln : st.lastNode with
        | none => rw [hln] at hok; simp at hok
        | some k =>
          rw [hln] at hok
          simp only [Except.ok.injEq] at hok
          rw [← hok]
          show (akeys (amod st.nodes k fun n =>
            { n with metadata := metaValuePut n.metadata (some g1) cell })).Nodup
          rw [akeys_amod]
          exact hnd
    · simp only [hg, if_false] at hok
      cases hln : st.lastNode with
      | none => rw [hln] at hok; simp at hok
      | some k =>
        rw [hln] at hok
        cases c with
        | none => simp at hok
        | some cell =>
          simp only [Except.ok.injEq] at hok
          rw [← hok]
          show (akeys (amod st.nodes k fun n =>
            { n with metadata := metaQualPut n.metadata (some g1) g2 cell })).Nodup
          rw [akeys_amod]
          exact hnd
  case _ heq => simp at hok

theorem stepCells_preservesNodes : ∀ (ps : List (String × Option String))
    (st st' : RowSt), stepCells st ps = .ok st' →
    preservesNodes st.nodes st'.nodes := by
  intro ps
  induction ps with
  | nil =>
    intro st st' hok
    simp only [stepCells, Except.ok.injEq] at hok
    rw [← hok]
    exact preservesNodes_refl _
  | cons p ps ih =>
    intro st st' hok
    rcases p with ⟨h, c⟩
    unfold stepCells at hok
    cases hsc : stepCell st h c with
    | error e => rw [hsc] at hok; simp at hok
    | ok st1 =>
      rw [hsc] at hok
      exact preservesNodes_trans (stepCell_preservesNodes st h c st1 hsc) (ih st1 st' hok)

theorem stepCells_nodupKeys : ∀ (ps : List (String × Option String))
    (st st' : RowSt), stepCells st ps = .ok st' →
    (akeys st.nodes).Nodup → (akeys st'.nodes).Nodup := by
  intro ps
  induction ps with
  | nil =>
    intro st st' hok hnd
    simp only [stepCells, Except.ok.injEq] at hok
    rw [← hok]
    exact hnd
  | cons p ps ih =>
    intro st st' hok hnd
    rcases p with ⟨h, c⟩
    unfold stepCells at hok
    cases hsc : stepCell st h c with
    | error e => rw [hsc] at hok; simp at hok
    | ok st1 =>
      rw [hsc] at hok
      exact ih st1 st' hok (stepCell_nodupKeys st h c st1 hsc hnd)

theorem processRow_preservesNodes (headers row : List String) (m m' : NodeMap)
    (hok : processRow headers row m = .ok m') : preservesNodes m m' := by
  unfold processRow at hok
  cases hsc : stepCells ⟨m, none, none⟩ (padCells headers row) with
  | error e => rw [hsc] at hok; simp at hok
  | ok st' =>
    rw [hsc] at hok
    simp only [Except.ok.injEq] at hok
    rw [← hok]
    exact stepCells_preservesNodes _ _ _ hsc

theorem processRow_nodupKeys (headers row : List String) (m m' : NodeMap)
    (hok : processRow headers row m = .ok m') (hnd : (akeys m).Nodup) :
    (akeys m').Nodup := by
  unfold processRow at hok
  cases hsc : stepCells ⟨m, none, none⟩ (padCells headers row) with
  | error e => rw [hsc] at hok; simp at hok
  | ok st' =>
    rw [hsc] at hok
    simp only [Except.ok.injEq] at hok
    rw [← hok]
    exact stepCells_nodupKeys _ _ _ hsc hnd

theorem foldRows_preservesNodes (headers : List String) :
    ∀ (rs : List (List String)) (m m' : NodeMap),
      List.foldlM (fun m r => processRow headers r m) m rs = .ok m' →
      preservesNodes m m' := by
  intro rs
  induction rs with
  | nil =>
    intro m m' hok
    have hok2 : Except.ok m = Except.ok m' := hok
    simp only [Except.ok.injEq] at hok2
    rw [← hok2]
    exact preservesNodes_refl _
  | cons r rs ih =>
    intro m m' hok
    rw [List.foldlM_cons] at hok
    cases hpr : processRow headers r m with
    | error e =>
      rw [hpr] at hok
      have hok2 : Except.error e = Except.ok m' := hok
      simp at hok2
    | ok m1 =>
      rw [hpr] at hok
      have hok2 : List.foldlM (fun m r => processRow headers r m) m1 rs = .ok m' := hok
      exact preservesNodes_trans (processRow_preservesNodes headers r m m1 hpr) (ih m1 m' hok2)

theorem foldRows_nodupKeys (headers : List String) :
    ∀ (rs : List (List String)) (m m' : NodeMap),
      List.foldlM (fun m r => processRow headers r m) m rs = .ok m' →
      (akeys m).Nodup → (akeys m').Nodup := by
  intro rs
  induction rs with
  | nil =>
    intro m m' hok hnd
    have hok2 : Except.ok m = Except.ok m' := hok
    simp only [Except.ok.injEq] at hok2
    rw [← hok2]
    exact hnd
  | cons r rs ih =>
    intro m m' hok hnd
    rw [List.foldlM_cons] at hok
    cases hpr : processRow headers r m with
    | error e =>
      rw [hpr] at hok
      have hok2 : Except.error e = Except.ok m' := hok
      simp at hok2
    | ok m1 =>
      rw [hpr] at hok
      have hok2 : List.foldlM (fun m r => processRow headers r m) m1 rs = .ok m' := hok
      exact ih m1 m' hok2 (processRow_nodupKeys headers r m m1 hpr hnd)



/-- Claim C1 (amended): rows that slug to the same non-REF id resolve to
the same entry of the ordered mapping: ids are unique keys, the node is
created on first sight, and processing further rows never removes it or
changes its creation-time `nid`, `ntype`, `nsubtype`, `label` — later rows
mutate the existing node.  (Its metadata accumulates with later writes
overwriting earlier values, but it is not always the plain union of all
rows' contributions: see the counterexample.) -/
theorem c1_same_node_monotone :
    ∀ (headers : List String) (rows rows' : List (List String)) (m m' : NodeMap),
      collapseRows headers rows = .ok m →
      collapseRows headers (rows ++ rows') = .ok m' →
      (akeys m').Nodup ∧
      ∀ k n, alook m k = some n → ∃ n', alook m' k = some n' ∧
        n'.nid = n.nid ∧ n'.ntype = n.ntype ∧ n'.nsubtype = n.nsubtype ∧
        n'.label = n.label := by
  intro headers rows rows' m m' h1 h2
  unfold collapseRows at h1 h2
  rw [List.foldlM_append, h1] at h2
  have h2' : List.foldlM (fun m r => processRow headers r m) m rows' = .ok m' := h2
  constructor
  · exact foldRows_nodupKeys headers rows' m m' h2'
      (foldRows_nodupKeys headers rows [] m h1 (by simp [akeys]))
  · exact foldRows_preservesNodes headers rows' m m' h2'

/-- Witness for C1: concrete collapse of one row and of the same row
twice, giving the same single-entry mapping with duplicate-free keys. -/
theorem c1_same_node_monotone_witness :
    (akeys [("a", (⟨"a", "entity", "sample", "a", [], [], []⟩ : IsaNode))]).Nodup :=
  (c1_same_node_monotone ["Sample Name"] [["a"]] [["a"]]
      [("a", ⟨"a", "entity", "sample", "a", [], [], []⟩)]
      [("a", ⟨"a", "entity", "sample", "a", [], [], []⟩)] rfl rfl).1



theorem mem_osetAdd (l : List String) (y x : String) :
    x ∈ osetAdd l y ↔ x ∈ l ∨ x = y := by
  unfold osetAdd
  by_cases hy : y ∈ l
  · simp only [if_pos hy]
    constructor
    · exact Or.inl
    · rintro (hx | rfl)
      · exact hx
      · exact hy
  · simp [if_neg hy]

theorem alook_amod (m : NodeMap) (k : String) (f : IsaNode → IsaNode) (x : String) :
    alook (amod m k f) x = if x = k then (alook m k).map f else alook m x := by
  by_cases hx : x = k
  · subst hx
    simp [alook_amod_self]
  · simp [alook_amod_ne _ _ _ hx, hx]

theorem alook_addEdge (m : NodeMap) (a b : String) (hab : a ≠ b) (x : String) :
    alook (addEdge m a b) x =
      if x = a then (alook m a).map (addChild b)
      else if x = b then (alook m b).map (addParent a)
      else alook m x := by
  unfold addEdge
  by_cases hxb : x = b
  · subst hxb
    rw [alook_amod_self, alook_amod_ne _ _ _ (Ne.symm hab)]
    simp [Ne.symm hab]
  · rw [alook_amod_ne _ _ _ hxb]
    by_cases hxa : x = a
    · subst hxa
      rw [alook_amod_self]
      simp
    · rw [alook_amod_ne _ _ _ hxa]
      simp [hxa, hxb]

theorem edgeInv_nil : EdgeInv [] := by
  refine ⟨fun k n hk => ?_, fun k n c hk => ?_, fun k n p hk => ?_⟩ <;>
    simp [alook] at hk



theorem edgeInv_amod_meta (m : NodeMap) (k : String) (f : IsaNode → IsaNode)
    (hf : ∀ n, (f n).nid = n.nid ∧ (f n).children = n.children ∧ (f n).parents = n.parents)
    (hinv : EdgeInv m) : EdgeInv (amod m k f) := by
  obtain ⟨h1, h2, h3⟩ := hinv
  have hPget : ∀ x n, alook (amod m k f) x = some n →
      ∃ n0, alook m x = some n0 ∧ n.nid = n0.nid ∧ n.children = n0.children ∧
        n.parents = n0.parents := by
    intro x n hx
    rw [alook_amod] at hx
    by_cases hxk : x = k
    · rw [if_pos hxk] at hx
      obtain ⟨n0, hn0, rfl⟩ := Option.map_eq_some'.mp hx
      exact ⟨n0, hxk ▸ hn0, (hf n0).1, (hf n0).2.1, (hf n0).2.2⟩
    · rw [if_neg hxk] at hx
      exact ⟨n, hx, rfl, rfl, rfl⟩
  have hPpar : ∀ c x, (∃ w, alook (amod m k f) c = some w ∧ x ∈ w.parents) ↔
      (∃ w, alook m c = some w ∧ x ∈ w.parents) := by
    intro c x
    constructor
    · rintro ⟨w, hw, hx⟩
      obtain ⟨w0, hw0, -, -, hpar⟩ := hPget c w hw
      exact ⟨w0, hw0, hpar ▸ hx⟩
    · rintro ⟨w, hw, hx⟩
      rw [alook_amod]
      by_cases hck : c = k
      · subst hck
        exact ⟨f w, by rw [if_pos rfl, hw]; rfl, by rw [(hf w).2.2]; exact hx⟩
      · exact ⟨w, by rw [if_neg hck]; exact hw, hx⟩
  have hPchi : ∀ c x, (∃ w, alook (amod m k f) c = some w ∧ x ∈ w.children) ↔
      (∃ w, alook m c = some w ∧ x ∈ w.children) := by
    intro c x
    constructor
    · rintro ⟨w, hw, hx⟩
      obtain ⟨w0, hw0, -, hchi, -⟩ := hPget c w hw
      exact ⟨w0, hw0, hchi ▸ hx⟩
    · rintro ⟨w, hw, hx⟩
      rw [alook_amod]
      by_cases hck : c = k
      · subst hck
        exact ⟨f w, by rw [if_pos rfl, hw]; rfl, by rw [(hf w).2.1]; exact hx⟩
      · exact ⟨w, by rw [if_neg hck]; exact hw, hx⟩
  refine ⟨?_, ?_, ?_⟩
  · intro x n hx
    obtain ⟨n0, hn0, hnid, hchi, hpar⟩ := hPget x n hx
    obtain ⟨e1, e2, e3⟩ := h1 x n0 hn0
    exact ⟨hnid ▸ e1, hchi ▸ e2, hpar ▸ e3⟩
  · intro x n c hx
    obtain ⟨n0, hn0, -, hchi, -⟩ := hPget x n hx
    rw [hchi, hPpar]
    exact h2 x n0 c hn0
  · intro x n p hx
    obtain ⟨n0, hn0, -, -, hpar⟩ := hPget x n hx
    rw [hpar, hPchi]
    exact h3 x n0 p hn0



theorem alook_append_single (m : NodeMap) (nid : String) (node : IsaNode) (x : String) :
    alook (m ++ [(nid, node)]) x =
      match alook m x with
      | some v => some v
      | none => if nid = x then some node else none := by
  cases hmx : alook m x with
  | some v => exact alook_append_some hmx
  | none =>
    rw [alook_append_none hmx]
    simp [alook]

theorem edgeInv_append_fresh (m : NodeMap) (nid : String) (node : IsaNode)
    (hnew : alook m nid = none) (hn : node.nid = nid)
    (hc : node.children = []) (hp : node.parents = [])
    (hinv : EdgeInv m) : EdgeInv (m ++ [(nid, node)]) := by
  obtain ⟨h1, h2, h3⟩ := hinv
  have hget : ∀ x n, alook (m ++ [(nid, node)]) x = some n →
      alook m x = some n ∨ (x = nid ∧ n = node) := by
    intro x n hx
    rw [alook_append_single] at hx
    cases hmx : alook m x with
    | some v =>
      rw [hmx] at hx
      exact Or.inl hx
    | none =>
      rw [hmx] at hx
      by_cases hnx : nid = x
      · rw [if_pos hnx] at hx
        simp only [Option.some.injEq] at hx
        exact Or.inr ⟨hnx.symm, hx.symm⟩
      · rw [if_neg hnx] at hx
        simp at hx
  refine ⟨?_, ?_, ?_⟩
  · intro x n hx
    rcases hget x n hx with hmx | ⟨hxe, hne⟩
    · exact h1 x n hmx
    · refine ⟨by rw [hne, hn, hxe], ?_, ?_⟩
      · rw [hne, hc]
        simp
      · rw [hne, hp]
        simp
  · intro x n c hx
    rcases hget x n hx with hmx | ⟨hxe, hne⟩
    · rw [h2 x n c hmx]
      constructor
      · rintro ⟨w, hw, hxw⟩
        exact ⟨w, alook_append_some hw, hxw⟩
      · rintro ⟨w, hw, hxw⟩
        rcases hget c w hw with hcw | ⟨hce, hwe⟩
        · exact ⟨w, hcw, hxw⟩
        · rw [hwe, hp] at hxw
          simp at hxw
    · rw [hne, hc]
      simp only [List.not_mem_nil, false_iff]
      rintro ⟨w, hw, hxw⟩
      rcases hget c w hw with hcw | ⟨hce, hwe⟩
      · obtain ⟨u, hu, -⟩ := (h3 c w x hcw).mp hxw
        rw [hxe, hnew] at hu
        exact Option.noConfusion hu
      · rw [hwe, hp] at hxw
        simp at hxw
  · intro x n p hx
    rcases hget x n hx with hmx | ⟨hxe, hne⟩
    · rw [h3 x n p hmx]
      constructor
      · rintro ⟨w, hw, hxw⟩
        exact ⟨w, alook_append_some hw, hxw⟩
      · rintro ⟨w, hw, hxw⟩
        rcases hget p w hw with hpw | ⟨hpe, hwe⟩
        · exact ⟨w, hpw, hxw⟩
        · rw [hwe, hc] at hxw
          simp at hxw
    · rw [hne, hp]
      simp only [List.not_mem_nil, false_iff]
      rintro ⟨w, hw, hxw⟩
      rcases hget p w hw with hpw | ⟨hpe, hwe⟩
      · obtain ⟨u, hu, -⟩ := (h2 p w x hpw).mp hxw
        rw [hxe, hnew] at hu
        exact Option.noConfusion hu
      · rw [hwe, hc] at hxw
        simp at hxw



theorem edgeInv_addEdge (m : NodeMap) (a b : String) (na nb : IsaNode)
    (ha : alook m a = some na) (hb : alook m b = some nb) (hab : a ≠ b)
    (hinv : EdgeInv m) : EdgeInv (addEdge m a b) := by
  obtain ⟨h1, h2, h3⟩ := hinv
  have hget : ∀ x n, alook (addEdge m a b) x = some n →
      (x = a ∧ n = addChild b na) ∨ (x = b ∧ n = addParent a nb) ∨
      (x ≠ a ∧ x ≠ b ∧ alook m x = some n) := by
    intro x n hx
    rw [alook_addEdge m a b hab] at hx
    by_cases hxa : x = a
    · rw [if_pos hxa, ha] at hx
      simp only [Option.map_some', Option.some.injEq] at hx
      exact Or.inl ⟨hxa, hx.symm⟩
    · rw [if_neg hxa] at hx
      by_cases hxb : x = b
      · rw [if_pos hxb, hb] at hx
        simp only [Option.map_some', Option.some.injEq] at hx
        exact Or.inr (Or.inl ⟨hxb, hx.symm⟩)
      · rw [if_neg hxb] at hx
        exact Or.inr (Or.inr ⟨hxa, hxb, hx⟩)
  have hRHSpar : ∀ c x, (∃ w, alook (addEdge m a b) c = some w ∧ x ∈ w.parents) ↔
      ((∃ w, alook m c = some w ∧ x ∈ w.parents) ∨ (c = b ∧ x = a)) := by
    intro c x
    rw [alook_addEdge m a b hab]
    by_cases hca : c = a
    · rw [if_pos hca, ha]
      constructor
      · rintro ⟨w, hw, hxw⟩
        simp only [Option.map_some', Option.some.injEq] at hw
        rw [← hw] at hxw
        exact Or.inl ⟨na, ha ▸ (hca ▸ rfl), hxw⟩
      · rintro (⟨w, hw, hxw⟩ | ⟨hcb, -⟩)
        · rw [hca, ha] at hw
          simp only [Option.some.injEq] at hw
          exact ⟨addChild b na, rfl, by show x ∈ na.parents; rw [hw]; exact hxw⟩
        · exact absurd (hca ▸ hcb) hab
    · rw [if_neg hca]
      by_cases hcb : c = b
      · rw [if_pos hcb, hb]
        constructor
        · rintro ⟨w, hw, hxw⟩
          simp only [Option.map_some', Option.some.injEq] at hw
          rw [← hw] at hxw
          have := (mem_osetAdd nb.parents a x).mp hxw
          rcases this with hin | hxa
          · exact Or.inl ⟨nb, hcb ▸ hb, hin⟩
          · exact Or.inr ⟨hcb, hxa⟩
        · rintro (⟨w, hw, hxw⟩ | ⟨-, hxa⟩)
          · rw [hcb, hb] at hw
            simp only [Option.some.injEq] at hw
            refine ⟨addParent a nb, rfl, ?_⟩
            show x ∈ osetAdd nb.parents a
            rw [mem_osetAdd]
            exact Or.inl (hw ▸ hxw)
          · refine ⟨addParent a nb, rfl, ?_⟩
            show x ∈ osetAdd nb.parents a
            rw [mem_osetAdd]
            exact Or.inr hxa
      · rw [if_neg hcb]
        constructor
        · rintro ⟨w, hw, hxw⟩
          exact Or.inl ⟨w, hw, hxw⟩
        · rintro (⟨w, hw, hxw⟩ | ⟨hcb2, -⟩)
          · exact ⟨w, hw, hxw⟩
          · exact absurd hcb2 hcb
  have hRHSchi : ∀ p x, (∃ w, alook (addEdge m a b) p = some w ∧ x ∈ w.children) ↔
      ((∃ w, alook m p = some w ∧ x ∈ w.children) ∨ (p = a ∧ x = b)) := by
    intro p x
    rw [alook_addEdge m a b hab]
    by_cases hpa : p = a
    · rw [if_pos hpa, ha]
      constructor
      · rintro ⟨w, hw, hxw⟩
        simp only [Option.map_some', Option.some.injEq] at hw
        rw [← hw] at hxw
        have := (mem_osetAdd na.children b x).mp hxw
        rcases this with hin | hxb
        · exact Or.inl ⟨na, hpa ▸ ha, hin⟩
        · exact Or.inr ⟨hpa, hxb⟩
      · rintro (⟨w, hw, hxw⟩ | ⟨-, hxb⟩)
        · rw [hpa, ha] at hw
          simp only [Option.some.injEq] at hw
          refine ⟨addChild b na, rfl, ?_⟩
          show x ∈ osetAdd na.children b
          rw [mem_osetAdd]
          exact Or.inl (hw ▸ hxw)
        · refine ⟨addChild b na, rfl, ?_⟩
          show x ∈ osetAdd na.children b
          rw [mem_osetAdd]
          exact Or.inr hxb
    · rw [if_neg hpa]
      by_cases hpb : p = b
      · rw [if_pos hpb, hb]
        constructor
        · rintro ⟨w, hw, hxw⟩
          simp only [Option.map_some', Option.some.injEq] at hw
          rw [← hw] at hxw
          exact Or.inl ⟨nb, hpb ▸ hb, hxw⟩
        · rintro (⟨w, hw, hxw⟩ | ⟨hpa2, -⟩)
          · rw [hpb, hb] at hw
            simp only [Option.some.injEq] at hw
            exact ⟨addParent a nb, rfl, by show x ∈ nb.children; rw [hw]; exact hxw⟩
          · exact absurd hpa2 hpa
      · rw [if_neg hpb]
        constructor
        · rintro ⟨w, hw, hxw⟩
          exact Or.inl ⟨w, hw, hxw⟩
        · rintro (⟨w, hw, hxw⟩ | ⟨hpa2, -⟩)
          · exact ⟨w, hw, hxw⟩
          · exact absurd hpa2 hpa
  refine ⟨?_, ?_, ?_⟩
  · intro x n hx
    rcases hget x n hx with ⟨hxa, hne⟩ | ⟨hxb, hne⟩ | ⟨hxa, hxb, hmx⟩
    · obtain ⟨e1, e2, e3⟩ := h1 a na ha
      rw [hne, hxa]
      refine ⟨e1, ?_, e3⟩
      intro hmem
      rcases (mem_osetAdd na.children b a).mp hmem with hin | heq
      · exact e2 hin
      · exact hab heq
    · obtain ⟨f1, f2, f3⟩ := h1 b nb hb
      rw [hne, hxb]
      refine ⟨f1, f2, ?_⟩
      intro hmem
      rcases (mem_osetAdd nb.parents a b).mp hmem with hin | heq
      · exact f3 hin
      · exact hab heq.symm
    · exact h1 x n hmx
  · intro x n c hx
    rcases hget x n hx with ⟨hxa, hne⟩ | ⟨hxb, hne⟩ | ⟨hxa, hxb, hmx⟩
    · rw [hne, hxa, hRHSpar c a]
      constructor
      · intro hmem
        rcases (mem_osetAdd na.children b c).mp hmem with hin | heq
        · exact Or.inl ((h2 a na c ha).mp hin)
        · exact Or.inr ⟨heq, rfl⟩
      · rintro (hold | ⟨heq, -⟩)
        · exact (mem_osetAdd na.children b c).mpr (Or.inl ((h2 a na c ha).mpr hold))
        · exact (mem_osetAdd na.children b c).mpr (Or.inr heq)
    · rw [hne, hxb, hRHSpar c b]
      constructor
      · intro hmem
        exact Or.inl ((h2 b nb c hb).mp hmem)
      · rintro (hold | ⟨-, hba⟩)
        · exact (h2 b nb c hb).mpr hold
        · exact absurd hba.symm hab
    · rw [hRHSpar c x]
      constructor
      · intro hmem
        exact Or.inl ((h2 x n c hmx).mp hmem)
      · rintro (hold | ⟨-, hxa2⟩)
        · exact (h2 x n c hmx).mpr hold
        · exact absurd hxa2 hxa
  · intro x n p hx
    rcases hget x n hx with ⟨hxa, hne⟩ | ⟨hxb, hne⟩ | ⟨hxa, hxb, hmx⟩
    · rw [hne, hxa, hRHSchi p a]
      constructor
      · intro hmem
        exact Or.inl ((h3 a na p ha).mp hmem)
      · rintro (hold | ⟨-, hba⟩)
        · exact (h3 a na p ha).mpr hold
        · exact absurd hba hab
    · rw [hne, hxb, hRHSchi p b]
      constructor
      · intro hmem
        rcases (mem_osetAdd nb.parents a p).mp hmem with hin | heq
        · exact Or.inl ((h3 b nb p hb).mp hin)
        · exact Or.inr ⟨heq, rfl⟩
      · rintro (hold | ⟨heq, -⟩)
        · exact (mem_osetAdd nb.parents a p).mpr (Or.inl ((h3 b nb p hb).mpr hold))
        · exact (mem_osetAdd nb.parents a p).mpr (Or.inr heq)
    · rw [hRHSchi p x]
      constructor
      · intro hmem
        exact Or.inl ((h3 x n p hmx).mp hmem)
      · rintro (hold | ⟨-, hxb2⟩)
        · exact (h3 x n p hmx).mpr hold
        · exact absurd hxb2 hxb



theorem edgeInv_m1 (m : NodeMap) (nid : String) (node : IsaNode)
    (hn : node.nid = nid) (hc : node.children = []) (hp : node.parents = [])
    (hinv : EdgeInv m) :
    EdgeInv (if ahas m nid then m else m ++ [(nid, node)]) ∧
    ahas (if ahas m nid then m else m ++ [(nid, node)]) nid = true ∧
    (∀ k, ahas m k = true →
      ahas (if ahas m nid then m else m ++ [(nid, node)]) k = true) := by
  by_cases hh : ahas m nid = true
  · rw [if_pos hh]
    exact ⟨hinv, hh, fun k hk => hk⟩
  · rw [if_neg hh]
    have hnew : alook m nid = none :=
      Option.not_isSome_iff_eq_none.mp (by simpa [ahas] using hh)
    refine ⟨edgeInv_append_fresh m nid node hnew hn hc hp hinv, ?_, ?_⟩
    · unfold ahas
      rw [alook_append_none hnew]
      simp [alook]
    · intro k hk
      unfold ahas at hk ⊢
      obtain ⟨v, hv⟩ := Option.isSome_iff_exists.mp hk
      rw [alook_append_some hv]
      rfl

theorem edgeInv_m2 (m1 : NodeMap) (lk nid : String)
    (hinv : EdgeInv m1) (hlk : ahas m1 lk = true) (hnid : ahas m1 nid = true) :
    EdgeInv (if lk = nid then m1 else addEdge m1 lk nid) ∧
    (∀ k, ahas (if lk = nid then m1 else addEdge m1 lk nid) k = ahas m1 k) := by
  by_cases he : lk = nid
  · rw [if_pos he]
    exact ⟨hinv, fun k => rfl⟩
  · rw [if_neg he]
    unfold ahas at hlk hnid
    obtain ⟨na, hna⟩ := Option.isSome_iff_exists.mp hlk
    obtain ⟨nb, hnb⟩ := Option.isSome_iff_exists.mp hnid
    exact ⟨edgeInv_addEdge m1 lk nid na nb hna hnb he hinv,
      fun k => ahas_addEdge m1 lk nid k⟩



theorem stepCell_stInv (st : RowSt) (h : String) (c : Option String)
    (st' : RowSt) (hok : stepCell st h c = .ok st') (hinv : StInv st) :
    StInv st' := by
  obtain ⟨hedge, hlast⟩ := hinv
  unfold stepCell at hok
  split at hok
  case _ heq =>
    cases c with
    | none => simp at hok
    | some cell =>
      by_cases hc : cell = ""
      · simp [hc] at hok
        rw [← hok]
        exact ⟨hedge, hlast⟩
      · simp only [hc, if_false] at hok
        cases hln : st.lastNode with
        | none => rw [hln] at hok; simp at hok
        | some k =>
          rw [hln] at hok
          simp only [Except.ok.injEq] at hok
          rw [← hok]
          refine ⟨edgeInv_amod_meta st.nodes k
              (fun n => { n with metadata := metaQualPut n.metadata st.lastAttr h cell })
              (fun n => ⟨rfl, rfl, rfl⟩) hedge, ?_⟩
          intro lk hlk
          have hkl : k = lk := by simpa using hlk
          show ahas (amod st.nodes k fun n =>
            { n with metadata := metaQualPut n.metadata st.lastAttr h cell }) lk = true
          rw [ahas_amod]
          exact hlast lk (hkl ▸ hln)
  case _ sub kind heq =>
    cases c with
    | none => simp at hok
    | some cell =>
      simp only at hok
      cases kind with
      | ref =>
        cases hln : st.lastNode with
        | none => rw [hln] at hok; simp at hok
        | some lk =>
          rw [hln] at hok
          simp only [Except.ok.injEq] at hok
          rw [← hok]
          have hm1 := edgeInv_m1 st.nodes (lk ++ "-ref-" ++ sLug cell)
            (mkIsaNode (lk ++ "-ref-" ++ sLug cell) .ref sub cell) rfl rfl rfl hedge
          have hm2 := edgeInv_m2 _ lk (lk ++ "-ref-" ++ sLug cell)
            hm1.1 (hm1.2.2 lk (hlast lk hln)) hm1.2.1
          refine ⟨hm2.1, ?_⟩
          intro lk2 hlk2
          simp only [Option.some.injEq] at hlk2
          rw [← hlk2, hm2.2]
          exact hm1.2.1
      | name =>
        cases hln : st.lastNode with
        | none =>
          rw [hln] at hok
          simp only [Except.ok.injEq] at hok
          rw [← hok]
          have hm1 := edgeInv_m1 st.nodes (sLug cell)
            (mkIsaNode (sLug cell) .name sub cell) rfl rfl rfl hedge
          refine ⟨hm1.1, ?_⟩
          intro lk2 hlk2
          simp only [Option.some.injEq] at hlk2
          rw [← hlk2]
          exact hm1.2.1
        | some lk =>
          rw [hln] at hok
          simp only [Except.ok.injEq] at hok
          rw [← hok]
          have hm1 := edgeInv_m1 st.nodes (sLug cell)
            (mkIsaNode (sLug cell) .name sub cell) rfl rfl rfl hedge
          have hm2 := edgeInv_m2 _ lk (sLug cell)
            hm1.1 (hm1.2.2 lk (hlast lk hln)) hm1.2.1
          refine ⟨hm2.1, ?_⟩
          intro lk2 hlk2
          simp only [Option.some.injEq] at hlk2
          rw [← hlk2, hm2.2]
          exact hm1.2.1
      | file =>
        cases hln : st.lastNode with
        | none =>
          rw [hln] at hok
          simp only [Except.ok.injEq] at hok
          rw [← hok]
          have hm1 := edgeInv_m1 st.nodes (sLug cell)
            (mkIsaNode (sLug cell) .file sub cell) rfl rfl rfl hedge
          refine ⟨hm1.1, ?_⟩
          intro lk2 hlk2
          simp only [Option.some.injEq] at hlk2
          rw [← hlk2]
          exact hm1.2.1
        | some lk =>
          rw [hln] at hok
          simp only [Except.ok.injEq] at hok
          rw [← hok]
          have hm1 := edgeInv_m1 st.nodes (sLug cell)
            (mkIsaNode (sLug cell) .file sub cell) rfl rfl rfl hedge
          have hm2 := edgeInv_m2 _ lk (sLug cell)
            hm1.1 (hm1.2.2 lk (hlast lk hln)) hm1.2.1
          refine ⟨hm2.1, ?_⟩
          intro lk2 hlk2
          simp only [Option.some.injEq] at hlk2
          rw [← hlk2, hm2.2]
          exact hm1.2.1
  case _ g1 g2 heq =>
    by_cases hg : g2 = ""
    · subst hg
      rw [if_pos rfl] at hok
      cases c with
      | none => simp at hok
      | some cell =>
        cases hln : st.lastNode with
        | none => rw [hln] at hok; simp at hok
        | some k =>
          rw [hln] at hok
          simp only [Except.ok.injEq] at hok
          rw [← hok]
          refine ⟨edgeInv_amod_meta st.nodes k
              (fun n => { n with metadata := metaValuePut n.metadata (some g1) cell })
              (fun n => ⟨rfl, rfl, rfl⟩) hedge, ?_⟩
          intro lk hlk
          have hkl : k = lk := by simpa using hlk
          show ahas (amod st.nodes k fun n =>
            { n with metadata := metaValuePut n.metadata (some g1) cell }) lk = true
          rw [ahas_amod]
          exact hlast lk (hkl ▸ hln)
    · simp only [hg, if_false] at hok
      cases hln : st.lastNode with
      | none => rw [hln] at hok; simp at hok
      | some k =>
        rw [hln] at hok
        cases c with
        | none => simp at hok
        | some cell =>
          simp only [Except.ok.injEq] at hok
          rw [← hok]
          refine ⟨edgeInv_amod_meta st.nodes k
              (fun n => { n with metadata := metaQualPut n.metadata (some g1) g2 cell })
              (fun n => ⟨rfl, rfl, rfl⟩) hedge, ?_⟩
          intro lk hlk
          have hkl : k = lk := by simpa using hlk
          show ahas (amod st.nodes k fun n =>
            { n with metadata := metaQualPut n.metadata (some g1) g2 cell }) lk = true
          rw [ahas_amod]
          exact hlast lk (hkl ▸ hln)
  case _ heq => simp at hok



theorem stepCells_stInv : ∀ (ps : List (String × Option String)) (st st' : RowSt),
    stepCells st ps = .ok st' → StInv st → StInv st' := by
  intro ps
  induction ps with
  | nil =>
    intro st st' hok hinv
    simp only [stepCells, Except.ok.injEq] at hok
    rw [← hok]
    exact hinv
  | cons p ps ih =>
    intro st st' hok hinv
    rcases p with ⟨h, c⟩
    unfold stepCells at hok
    cases hsc : stepCell st h c with
    | error e => rw [hsc] at hok; simp at hok
    | ok st1 =>
      rw [hsc] at hok
      exact ih st1 st' hok (stepCell_stInv st h c st1 hsc hinv)

theorem processRow_edgeInv (headers row : List String) (m m' : NodeMap)
    (hok : processRow headers row m = .ok m') (hinv : EdgeInv m) : EdgeInv m' := by
  unfold processRow at hok
  cases hsc : stepCells ⟨m, none, none⟩ (padCells headers row) with
  | error e => rw [hsc] at hok; simp at hok
  | ok st' =>
    rw [hsc] at hok
    simp only [Except.ok.injEq] at hok
    rw [← hok]
    exact (stepCells_stInv _ _ _ hsc ⟨hinv, fun lk hlk => Option.noConfusion hlk⟩).1

theorem foldRows_edgeInv (headers : List String) :
    ∀ (rs : List (List String)) (m m' : NodeMap),
      List.foldlM (fun m r => processRow headers r m) m rs = .ok m' →
      EdgeInv m → EdgeInv m' := by
  intro rs
  induction rs with
  | nil =>
    intro m m' hok hinv
    have hok2 : Except.ok m = Except.ok m' := hok
    simp only [Except.ok.injEq] at hok2
    rw [← hok2]
    exact hinv
  | cons r rs ih =>
    intro m m' hok hinv
    rw [List.foldlM_cons] at hok
    cases hpr : processRow headers r m with
    | error e =>
      rw [hpr] at hok
      have hok2 : Except.error e = Except.ok m' := hok
      simp at hok2
    | ok m1 =>
      rw [hpr] at hok
      have hok2 : List.foldlM (fun m r => processRow headers r m) m1 rs = .ok m' := hok
      exact ih m1 m' hok2 (processRow_edgeInv headers r m m1 hpr hinv)

/-- Claim C2: in every node mapping `_collapse_rows` returns, edges are
symmetric and self-loop-free: no node lists its own id among its parents
or children (identical consecutive ids record no edge), and an id `c` is
in the children of the node at `k` exactly when the node stored at `c`
exists and lists `k` among its parents — and symmetrically for parents. -/
theorem c2_edge_symmetry :
    ∀ (headers : List String) (rows : List (List String)) (m : NodeMap),
      collapseRows headers rows = .ok m →
      (∀ k n, alook m k = some n → k ∉ n.children ∧ k ∉ n.parents) ∧
      (∀ k n c, alook m k = some n →
        (c ∈ n.children ↔ ∃ w, alook m c = some w ∧ k ∈ w.parents)) ∧
      (∀ k n p, alook m k = some n →
        (p ∈ n.parents ↔ ∃ w, alook m p = some w ∧ k ∈ w.children)) := by
  intro headers rows m hok
  unfold collapseRows at hok
  have hinv := foldRows_edgeInv headers rows [] m hok edgeInv_nil
  exact ⟨fun k n hk => ⟨(hinv.1 k n hk).2.1, (hinv.1 k n hk).2.2⟩,
    hinv.2.1, hinv.2.2⟩

/-- Witness for C2 on the collapse of one `Source Name`/`Sample Name` row:
`samp` is a child of `src` exactly because `src` is a parent of `samp`. -/
theorem c2_edge_symmetry_witness :
    "samp" ∈ (IsaNode.mk "src" "entity" "source" "src" [] ["samp"] []).children ↔
      ∃ w, alook [("src", IsaNode.mk "src" "entity" "source" "src" [] ["samp"] []),
                  ("samp", IsaNode.mk "samp" "entity" "sample" "samp" ["src"] [] [])]
              "samp" = some w ∧ "src" ∈ w.parents :=
  (c2_edge_symmetry ["Source Name", "Sample Name"] [["src", "samp"]]
      [("src", IsaNode.mk "src" "entity" "source" "src" [] ["samp"] []),
       ("samp", IsaNode.mk "samp" "entity" "sample" "samp" ["src"] [] [])] rfl).2.1
    "src" (IsaNode.mk "src" "entity" "source" "src" [] ["samp"] []) "samp" rfl



theorem mapME_length {α β : Type} (f : α → Except Err β) :
    ∀ (l : List α) (l' : List β), mapME f l = .ok l' → l'.length = l.length := by
  intro l
  induction l with
  | nil =>
    intro l' hok
    simp only [mapME, Except.ok.injEq] at hok
    rw [← hok]
    rfl
  | cons a as ih =>
    intro l' hok
    unfold mapME at hok
    cases hfa : f a with
    | error e => rw [hfa] at hok; simp at hok
    | ok b =>
      rw [hfa] at hok
      cases hma : mapME f as with
      | error e => rw [hma] at hok; simp at hok
      | ok bs =>
        rw [hma] at hok
        simp only [Except.ok.injEq] at hok
        rw [← hok]
        simp [ih bs hma]

/-- Claim C4 (amended): a study is dropped exactly when `_parse_nodes` is
falsy for its file — the file is missing (`None`) or the collapsed node
mapping is empty; for a retained study every entry of the raw assay list
yields exactly one kept Assay record, and an assay whose own file is
missing is still kept, with `nodes = None`. -/
theorem c4_study_drop :
    ∀ (fs : Fs) (dir : String) (s : IRec) (fname : String) (r : Option StudyOut),
      alook s.metadata "Study File Name" = some fname →
      processStudy fs dir s = .ok r →
      ((r = none ↔ parseNodesE fs dir fname = .ok none ∨
          parseNodesE fs dir fname = .ok (some [])) ∧
       (∀ so, r = some so → so.study = s ∧ so.nodes ≠ [] ∧
          parseNodesE fs dir fname = .ok (some so.nodes) ∧
          ∃ l, s.assays = some l ∧ mapME (mkAssay fs dir) l = .ok so.assays ∧
            so.assays.length = l.length) ∧
       (∀ raw fname2, alook raw "Study Assay File Name" = some fname2 →
          fs (pjoin dir fname2) = none →
          mkAssay fs dir raw = .ok ⟨raw, none⟩)) := by
  intro fs dir s fname r hfn hok
  have hassay : ∀ raw fname2, alook raw "Study Assay File Name" = some fname2 →
      fs (pjoin dir fname2) = none → mkAssay fs dir raw = .ok ⟨raw, none⟩ := by
    intro raw fname2 hraw hfs2
    have hpn2 : parseNodesE fs dir fname2 = .ok none := by
      unfold parseNodesE
      rw [hfs2]
    unfold mkAssay
    rw [hraw]
    show (match parseNodesE fs dir fname2 with
          | .error e => Except.error e
          | .ok nd => .ok (⟨raw, nd⟩ : AssayOut)) = .ok ⟨raw, none⟩
    rw [hpn2]
  unfold processStudy at hok
  rw [hfn] at hok
  have hok2 : (match parseNodesE fs dir fname with
    | .error e => .error e
    | .ok none => .ok none
    | .ok (some m) =>
      if m.isEmpty then .ok none
      else
        match s.assays with
        | none => .error .typeErr
        | some rawAssays =>
          match mapME (mkAssay fs dir) rawAssays with
          | .error e => .error e
          | .ok asys => .ok (some (⟨s, m, asys⟩ : StudyOut))) = Except.ok r := hok
  clear hok
  cases hpn : parseNodesE fs dir fname with
  | error e => rw [hpn] at hok2; simp at hok2
  | ok sd =>
    rw [hpn] at hok2
    cases sd with
    | none =>
      have hok3 : Except.ok none = Except.ok r := hok2
      simp only [Except.ok.injEq] at hok3
      refine ⟨?_, ?_, hassay⟩
      · rw [← hok3]
        simp
      · intro so hso
        rw [← hok3] at hso
        exact Option.noConfusion hso
    | some m =>
      have hok3 : (if m.isEmpty then Except.ok none
          else
            match s.assays with
            | none => Except.error Err.typeErr
            | some rawAssays =>
              match mapME (mkAssay fs dir) rawAssays with
              | Except.error e => Except.error e
              | Except.ok asys => Except.ok (some (⟨s, m, asys⟩ : StudyOut)))
          = Except.ok r := hok2
      clear hok2
      by_cases hm : m.isEmpty
      · rw [if_pos hm] at hok3
        simp only [Except.ok.injEq] at hok3
        have hmnil : m = [] := List.isEmpty_iff.mp hm
        refine ⟨?_, ?_, hassay⟩
        · rw [← hok3]
          simp only [true_iff]
          exact Or.inr (by rw [hmnil])
        · intro so hso
          rw [← hok3] at hso
          exact Option.noConfusion hso
      · rw [if_neg hm] at hok3
        cases has : s.assays with
        | none => rw [has] at hok3; simp at hok3
        | some l =>
          rw [has] at hok3
          have hok3b : (match mapME (mkAssay fs dir) l with
              | Except.error e => Except.error e
              | Except.ok asys => Except.ok (some (⟨s, m, asys⟩ : StudyOut)))
              = Except.ok r := hok3
          clear hok3
          cases hma : mapME (mkAssay fs dir) l with
          | error e => rw [hma] at hok3b; simp at hok3b
          | ok asys =>
            rw [hma] at hok3b
            have hok4 : Except.ok (some (⟨s, m, asys⟩ : StudyOut)) = Except.ok r := hok3b
            simp only [Except.ok.injEq] at hok4
            refine ⟨?_, ?_, hassay⟩
            · rw [← hok4]
              constructor
              · intro hcon
                exact Option.noConfusion hcon
              · rintro (hcon | hcon)
                · exact Option.noConfusion (Except.ok.inj hcon)
                · have hmnil : m = [] := Option.some.inj (Except.ok.inj hcon)
                  exact (hm (List.isEmpty_iff.mpr hmnil)).elim
            · intro so hso
              rw [← hok4] at hso
              simp only [Option.some.injEq] at hso
              rw [← hso]
              exact ⟨rfl, fun hcon => hm (List.isEmpty_iff.mpr hcon),
                rfl, l, rfl, hma, mapME_length _ l asys hma⟩

/-- Witness for C4: the study of the header-only file is dropped, and an
assay whose file is missing is kept with `nodes = none`. -/
theorem c4_study_drop_witness :
    mkAssay c4fs "" [("Study Assay File Name", "missing.txt")]
      = .ok ⟨[("Study Assay File Name", "missing.txt")], none⟩ :=
  (c4_study_drop c4fs "" c4study "s.txt" none rfl rfl).2.2
    [("Study Assay File Name", "missing.txt")] "missing.txt" rfl rfl

end Isa

namespace Isa

theorem pkAux_data (hdr : Row) (rest : List Row) (hh : isSecRow hdr = true) :
    ∀ (fr : List Row) (out : List Dict), (∀ l ∈ fr, isSecRow l = false) →
      pkAux (some out) (fr ++ hdr :: rest) = (some (fr.foldl addLine out), some hdr, rest) := by
  intro fr
  induction fr with
  | nil =>
    intro out hd
    rw [List.nil_append, pkAux.eq_def]
    simp [hh]
  | cons f fr' ih =>
    intro out hd
    have hf : isSecRow f = false := hd f (List.mem_cons_self f fr')
    rw [List.cons_append, pkAux.eq_def]
    simp only [hf, Bool.false_eq_true, if_false]
    rw [List.foldl_cons]
    exact ih (addLine out f) fun l hl => hd l (List.mem_cons_of_mem f hl)

theorem pkAux_data_none (hdr : Row) (rest : List Row) (hh : isSecRow hdr = true)
    (fr : List Row) (hd : ∀ l ∈ fr, isSecRow l = false) :
    pkAux none (fr ++ hdr :: rest) = (kvOf fr, some hdr, rest) := by
  cases fr with
  | nil =>
    rw [List.nil_append, pkAux.eq_def]
    simp [hh, kvOf]
  | cons f fr' =>
    have hf : isSecRow f = false := hd f (List.mem_cons_self f fr')
    rw [List.cons_append, pkAux.eq_def]
    simp only [hf, Bool.false_eq_true, if_false]
    rw [pkAux_data hdr rest hh fr' _ fun l hl => hd l (List.mem_cons_of_mem f hl)]
    rfl

theorem trimTrail_headD (l : Row) (h : l.headD "" ≠ "") :
    (trimTrail l).headD "" = l.headD "" := by
  cases l with
  | nil => rfl
  | cons a rest =>
    have ha : ¬((a = "") = True) := by
      simpa using h
    unfold trimTrail
    rw [List.reverse_cons, List.dropWhile_append]
    by_cases he : (rest.reverse.dropWhile (· = "")).isEmpty
    · rw [if_pos he]
      simp only [List.dropWhile_cons]
      rw [if_neg (by simpa using h)]
      rfl
    · rw [if_neg he]
      rw [List.reverse_append]
      rfl

end Isa

namespace Isa

theorem akeys_addLineAux (key : String) (l : Row) :
    ∀ (o : List Dict) (i : Nat) (d' : Dict), d' ∈ addLineAux key l i o →
      ∀ x, x ∈ akeys d' → (∃ d ∈ o, x ∈ akeys d) ∨ x = key := by
  intro o
  induction o with
  | nil =>
    intro i d' hd'
    simp [addLineAux] at hd'
  | cons d ds ih =>
    intro i d' hd' x hx
    unfold addLineAux at hd'
    rcases List.mem_cons.mp hd' with h1 | h1
    · rcases mem_akeys_aput d key _ (h1 ▸ hx) with hin | hkey
      · exact Or.inl ⟨d, List.mem_cons_self d ds, hin⟩
      · exact Or.inr hkey
    · rcases ih (i + 1) d' h1 x hx with ⟨d2, hd2, hin⟩ | hkey
      · exact Or.inl ⟨d2, List.mem_cons_of_mem d hd2, hin⟩
      · exact Or.inr hkey

theorem akeys_addLine (o : List Dict) (l : Row) (d' : Dict) (hd' : d' ∈ addLine o l)
    (x : String) (hx : x ∈ akeys d') :
    (∃ d ∈ o, x ∈ akeys d) ∨ x = l.headD "" :=
  akeys_addLineAux (l.headD "") l o 0 d' hd' x hx

theorem akeys_foldl_addLine :
    ∀ (fr : List Row) (o : List Dict) (d' : Dict), d' ∈ fr.foldl addLine o →
      ∀ x, x ∈ akeys d' →
        (∃ d ∈ o, x ∈ akeys d) ∨ x ∈ fr.map (fun l => l.headD "") := by
  intro fr
  induction fr with
  | nil =>
    intro o d' hd' x hx
    exact Or.inl ⟨d', hd', hx⟩
  | cons f fr' ih =>
    intro o d' hd' x hx
    rw [List.foldl_cons] at hd'
    rcases ih (addLine o f) d' hd' x hx with ⟨d2, hd2, hin⟩ | hmem
    · rcases akeys_addLine o f d2 hd2 x hin with ⟨d3, hd3, hin3⟩ | hkey
      · exact Or.inl ⟨d3, hd3, hin3⟩
      · exact Or.inr (by rw [List.map_cons, hkey]; exact List.mem_cons_self _ _)
    · exact Or.inr (by rw [List.map_cons]; exact List.mem_cons_of_mem _ hmem)

theorem akeys_kvOf (fr : List Row) (hne : ∀ l ∈ fr, l.headD "" ≠ "")
    (ds : List Dict) (hkv : kvOf fr = some ds) (d : Dict) (hd : d ∈ ds)
    (x : String) (hx : x ∈ akeys d) : x ∈ fr.map (fun l => l.headD "") := by
  cases fr with
  | nil => simp [kvOf] at hkv
  | cons f fr' =>
    simp only [kvOf, Option.some.injEq] at hkv
    rw [← hkv] at hd
    rcases akeys_foldl_addLine fr' _ d hd x hx with ⟨d2, hd2, hin⟩ | hmem
    · rcases akeys_addLine _ (trimTrail f) d2 hd2 x hin with ⟨d3, hd3, hin3⟩ | hkey
      · have hnil : d3 = [] := List.eq_of_mem_replicate hd3
        rw [hnil] at hin3
        simp [akeys] at hin3
      · rw [trimTrail_headD f (hne f (List.mem_cons_self f fr'))] at hkey
        rw [List.map_cons, hkey]
        exact List.mem_cons_self _ _
    · rw [List.map_cons]
      exact List.mem_cons_of_mem _ hmem

end Isa

namespace Isa

theorem regionLoopF_iter (fuel : Nat) (rec : IRec) (sec : Row)
    (fr : List Row) (h0 : String) (rest : List Row)
    (hfr : ∀ l ∈ fr, isSecRow l = false) (hh : isSecRow [h0] = true)
    (attrName : String) (hattr : alook sectionsTable (sec.headD "") = some attrName)
    (rec' : IRec) (hsf : setField rec attrName (kvOf fr) = .ok rec') :
    regionLoopF (fuel + 1) rec sec (fr ++ [h0] :: rest) =
      if h0 = "STUDY" then .ok (rec', rest) else regionLoopF fuel rec' [h0] rest := by
  have h1 : regionLoopF (fuel + 1) rec sec (fr ++ [h0] :: rest) =
      (match pkAux none (fr ++ [h0] :: rest) with
       | (kv, nsec, rest') =>
         match alook sectionsTable (sec.headD "") with
         | none => Except.error Err.secKeyErr
         | some attrName =>
           match setField rec attrName kv with
           | .error e => .error e
           | .ok rec' =>
             match nsec with
             | some (s0 :: stail) =>
               if s0 = "STUDY" then .ok (rec', rest')
               else regionLoopF fuel rec' (s0 :: stail) rest'
             | _ => .ok (rec', rest')) := rfl
  rw [h1, pkAux_data_none [h0] rest hh fr hfr]
  show (match alook sectionsTable (sec.headD "") with
        | none => Except.error Err.secKeyErr
        | some attrName =>
          match setField rec attrName (kvOf fr) with
          | Except.error e => Except.error e
          | Except.ok rec' =>
            if h0 = "STUDY" then Except.ok (rec', rest)
            else regionLoopF fuel rec' [h0] rest) = _
  rw [hattr]
  show (match setField rec attrName (kvOf fr) with
        | Except.error e => Except.error e
        | Except.ok rec' =>
          if h0 = "STUDY" then Except.ok (rec', rest)
          else regionLoopF fuel rec' [h0] rest) = _
  rw [hsf]

end Isa

namespace Isa

/-- Claim C8: `_parse_region` never merges the key/value rows of two
sections into one record.  For a study region whose filtered rows consist
of a metadata block, a STUDY FACTORS block `fr`, a STUDY PROTOCOLS block
`pr` and the closing STUDY header, the factors attribute receives exactly
the dicts collected from `fr` and the protocols attribute exactly those
from `pr`, and every key of either record comes from the first cells of
its own block's rows — so a key appearing only under STUDY FACTORS can
never reach the protocols mapping. -/
theorem c8_section_isolation :
    ∀ (mr fr pr rest : List Row) (st : IRec) (had : Bool) (rem : List Row),
      (∀ l ∈ mr, isSecRow l = false) →
      (∀ l ∈ fr, isSecRow l = false) → (∀ l ∈ fr, l.headD "" ≠ "") →
      (∀ l ∈ pr, isSecRow l = false) → (∀ l ∈ pr, l.headD "" ≠ "") →
      parseRegion IRec.init
        (mr ++ ["STUDY FACTORS"] ::
          (fr ++ ["STUDY PROTOCOLS"] :: (pr ++ ["STUDY"] :: rest)))
        = .ok (st, had, rem) →
      st.factors = kvOf fr ∧ st.protocols = kvOf pr ∧
      (∀ ds d k, st.factors = some ds → d ∈ ds → k ∈ akeys d →
        k ∈ fr.map (fun l => l.headD "")) ∧
      (∀ ds d k, st.protocols = some ds → d ∈ ds → k ∈ akeys d →
        k ∈ pr.map (fun l => l.headD "")) := by
  intro mr fr pr rest st had rem hmr hfr hfr1 hpr hpr1 hreg
  have hpk1 := pkAux_data_none ["STUDY FACTORS"]
    (fr ++ ["STUDY PROTOCOLS"] :: (pr ++ ["STUDY"] :: rest)) (by decide) mr hmr
  unfold parseRegion at hreg
  rw [hpk1] at hreg
  have hreg2 : (match regionLoop (metaAssign IRec.init (kvOf mr)) ["STUDY FACTORS"]
      (fr ++ ["STUDY PROTOCOLS"] :: (pr ++ ["STUDY"] :: rest)) with
    | Except.error e => Except.error e
    | Except.ok (r, rest') => Except.ok (r, true, rest')) = Except.ok (st, had, rem) := hreg
  clear hreg
  have hloop : regionLoop (metaAssign IRec.init (kvOf mr)) ["STUDY FACTORS"]
      (fr ++ ["STUDY PROTOCOLS"] :: (pr ++ ["STUDY"] :: rest))
      = Except.ok ({ { metaAssign IRec.init (kvOf mr) with
          factors := kvOf fr } with protocols := kvOf pr }, rest) := by
    unfold regionLoop
    have hsf1 : setField (metaAssign IRec.init (kvOf mr)) "factors" (kvOf fr)
        = Except.ok { metaAssign IRec.init (kvOf mr) with factors := kvOf fr } := rfl
    have hsf2 : setField { metaAssign IRec.init (kvOf mr) with factors := kvOf fr }
        "protocols" (kvOf pr)
        = Except.ok { { metaAssign IRec.init (kvOf mr) with factors := kvOf fr } with
            protocols := kvOf pr } := rfl
    rw [regionLoopF_iter
        ((fr ++ ["STUDY PROTOCOLS"] :: (pr ++ ["STUDY"] :: rest)).length)
        (metaAssign IRec.init (kvOf mr)) ["STUDY FACTORS"] fr "STUDY PROTOCOLS"
        (pr ++ ["STUDY"] :: rest) hfr (by decide) "factors" rfl
        { metaAssign IRec.init (kvOf mr) with factors := kvOf fr } hsf1]
    rw [if_neg (by decide)]
    have hlen : (fr ++ ["STUDY PROTOCOLS"] :: (pr ++ ["STUDY"] :: rest)).length
        = (fr.length + (pr ++ ["STUDY"] :: rest).length) + 1 := by
      simp [List.length_append]
      omega
    rw [hlen]
    rw [regionLoopF_iter (fr.length + (pr ++ ["STUDY"] :: rest).length)
        { metaAssign IRec.init (kvOf mr) with factors := kvOf fr }
        ["STUDY PROTOCOLS"] pr "STUDY" rest hpr (by decide) "protocols" rfl
        { { metaAssign IRec.init (kvOf mr) with factors := kvOf fr } with
          protocols := kvOf pr } hsf2]
    rw [if_pos rfl]
  rw [hloop] at hreg2
  have hreg3 : Except.ok ((({ { metaAssign IRec.init (kvOf mr) with
      factors := kvOf fr } with protocols := kvOf pr } : IRec), true, rest) :
      IRec × Bool × List Row) = Except.ok (st, had, rem) := hreg2
  simp only [Except.ok.injEq, Prod.mk.injEq] at hreg3
  obtain ⟨hst, -, -⟩ := hreg3
  refine ⟨by rw [← hst], by rw [← hst], ?_, ?_⟩
  · intro ds d k hds hd hk
    rw [← hst] at hds
    have hds2 : kvOf fr = some ds := hds
    exact akeys_kvOf fr hfr1 ds hds2 d hd k hk
  · intro ds d k hds hd hk
    rw [← hst] at hds
    have hds2 : kvOf pr = some ds := hds
    exact akeys_kvOf pr hpr1 ds hds2 d hd k hk

/-- Closed witness for C8: a concrete region with one factors row and one
protocols row parses, and the two attributes hold exactly their own
block's data. -/
theorem c8_section_isolation_witness :
    ∃ st : IRec, ∃ had : Bool, ∃ rem : List Row,
      parseRegion IRec.init
        ([] ++ ["STUDY FACTORS"] ::
          ([["age", "y"]] ++ ["STUDY PROTOCOLS"] ::
            ([["p1", "v"]] ++ ["STUDY"] :: ([] : List Row))))
        = Except.ok (st, had, rem) ∧
      st.factors = kvOf [["age", "y"]] ∧ st.protocols = kvOf [["p1", "v"]] := by
  refine ⟨_, _, _, rfl, ?_, ?_⟩
  · exact (c8_section_isolation [] [["age", "y"]] [["p1", "v"]] [] _ _ _
      (by decide) (by decide) (by decide) (by decide) (by decide) rfl).1
  · exact (c8_section_isolation [] [["age", "y"]] [["p1", "v"]] [] _ _ _
      (by decide) (by decide) (by decide) (by decide) (by decide) rfl).2.1

end Isa
